import Mathlib

/-!
Verification of the graf shortest-path engine.

This file gives a shallow embedding of the core of the repository:
the dense node-indexed containers (src/map.rs, src/set.rs), the mutable
adjacency-list graph (src/lib.rs), the locked CSR-style graph and the
search accelerator (src/astar.rs), and the A* search itself
(src/lib.rs a_star / src/astar.rs a_star, whose loop bodies are textually
identical).

Machine floats (f32, the Cost type) are embedded as exact rationals.
Rust panics (assertion failures, indexing a missing map entry, indexing a
vector out of bounds) are modelled as an explicit fatal outcome, and the
unbounded search loop is modelled with an explicit fuel parameter; fuel
exhaustion is a third, distinguished outcome.
-/

namespace Graf

/-- Edge weight: f32 in the source, embedded as an exact rational. -/
abbrev Cost := ℚ

/-- `Edge { node: Node, cost: Cost }` from src/lib.rs. A node is the dense
zero-based index wrapped by the `Node` newtype. -/
structure Edge where
  node : ℕ
  cost : Cost
deriving DecidableEq, Repr

/-- `GraphType` from src/lib.rs. -/
inductive GraphType where
  | Directed
  | Undirected
deriving DecidableEq, Repr

/-- `AdjacencyList` from src/lib.rs: a per-node list of outgoing edges plus
the graph type tag. -/
structure AdjacencyList where
  nodes : List (List Edge)
  ty : GraphType
deriving DecidableEq, Repr

/-- `Path` from src/lib.rs: an ordered list of `(node, incremental weight)`
pairs, reusing the `Edge` struct. -/
abbrev Path := List Edge

/-- `NodeMap<T>` from src/map.rs: a flat vector of optional slots indexed
by node id. -/
structure NodeMap (α : Type) where
  v : List (Option α)
deriving DecidableEq, Repr

namespace NodeMap

/-- `NodeMap::new` (also stands for `with_capacity`, since capacity is not
observable in the embedding). -/
def new (α : Type) : NodeMap α := ⟨[]⟩

/-- `NodeMap::insert`: `resize_with(i + 1, None)` when the index is past the
current length, then overwrite slot `i`. -/
def insert (m : NodeMap α) (n : ℕ) (t : α) : NodeMap α :=
  ⟨(m.v ++ List.replicate (n + 1 - m.v.length) none).set n (some t)⟩

/-- `NodeMap::get`: indices beyond the backing length read as absent. -/
def get (m : NodeMap α) (n : ℕ) : Option α :=
  m.v.getD n none

/-- `NodeMap::has`. -/
def has (m : NodeMap α) (n : ℕ) : Bool :=
  (m.get n).isSome

/-- Modelled from the spec: `NodeMap::clear` is called by
`AStarAcceleration::clear_transients` in src/astar.rs but no `clear` method
appears in src/map.rs. The spec states that `clear()` resets all entries to
absent without shrinking capacity, in O(current length), without freeing
storage; so every backing slot is overwritten with `None` and the backing
length is kept. -/
def clear (m : NodeMap α) : NodeMap α :=
  ⟨m.v.map fun _ => none⟩

end NodeMap

/-- `NodeSet` from src/set.rs: a flat vector of booleans indexed by node id. -/
structure NodeSet where
  v : List Bool
deriving DecidableEq, Repr

namespace NodeSet

/-- `NodeSet::new` / `with_capacity`. -/
def new : NodeSet := ⟨[]⟩

/-- `NodeSet::add`: resize with `false` when needed, set slot `i` to true,
return whether the node was new. -/
def add (s : NodeSet) (n : ℕ) : Bool × NodeSet :=
  let v := s.v ++ List.replicate (n + 1 - s.v.length) false
  (!(v.getD n false), ⟨v.set n true⟩)

/-- `NodeSet::has`: indices beyond the backing length read as false. -/
def has (s : NodeSet) (n : ℕ) : Bool :=
  s.v.getD n false

/-- `NodeSet::clear` from src/set.rs lines 93-97: overwrite every slot with
`false`; the backing vector keeps its length. -/
def clear (s : NodeSet) : NodeSet :=
  ⟨s.v.map fun _ => false⟩

end NodeSet

namespace AdjacencyList

/-- `AdjacencyList::new`. -/
def new (ty : GraphType) : AdjacencyList := ⟨[], ty⟩

/-- `AdjacencyList::add_node`: returns the fresh node id and the grown graph. -/
def add_node (g : AdjacencyList) : ℕ × AdjacencyList :=
  (g.nodes.length, ⟨g.nodes ++ [[]], g.ty⟩)

/-- `AdjacencyList::is_valid`. -/
def is_valid (g : AdjacencyList) (n : ℕ) : Bool :=
  n < g.nodes.length

/-- `AdjacencyList::has_directed_edge_unchecked`: scans node `a`'s list for
an edge to `b`. The source indexes `nodes[a.0]` without a bounds check and is
only called with valid `a`; out-of-range reads are given the empty list here
and every use below is guarded by validity exactly as in the source. -/
def has_directed_edge_unchecked (g : AdjacencyList) (a b : ℕ) : Bool :=
  (g.nodes.getD a []).any fun e => e.node = b

/-- `AdjacencyList::add_edge` from src/lib.rs lines 85-95. `none` models the
process aborting on a failed `assert!`. If the directed edge `a -> b` already
exists the call returns with the graph unchanged; otherwise `b` is pushed on
`a`'s list, and for undirected graphs the reverse edge is asserted to already
exist before being pushed as well. -/
def add_edge (g : AdjacencyList) (a b : ℕ) (c : Cost) : Option AdjacencyList :=
  if ¬(g.is_valid a ∧ g.is_valid b) then none
  else if g.has_directed_edge_unchecked a b then some g
  else
    let g' : AdjacencyList := ⟨g.nodes.set a ((g.nodes.getD a []) ++ [⟨b, c⟩]), g.ty⟩
    if g.ty = GraphType.Undirected then
      if g'.has_directed_edge_unchecked b a then
        some ⟨g'.nodes.set b ((g'.nodes.getD b []) ++ [⟨a, c⟩]), g'.ty⟩
      else none
    else some g'

/-- `AdjacencyList::size` (also `len` as used by `AStarAcceleration::new`). -/
def size (g : AdjacencyList) : ℕ := g.nodes.length

end AdjacencyList

/-!
The `Ord` instance on `Edge` (src/lib.rs lines 37-44):
`o.cost.partial_cmp(&self.cost).expect("Invalid float").then_with(|| self.node.cmp(&o.node))`.
The first component is the comparison of the costs reversed; the tie-break
compares the node ids in their natural direction.
-/

/-- Comparison of rationals (total counterpart of `partial_cmp` on finite
floats; NaN cannot arise for rationals). -/
def cmpQ (a b : ℚ) : Ordering :=
  if a < b then .lt else if a = b then .eq else .gt

/-- Comparison of node ids (`Node::cmp`, i.e. `usize` comparison). -/
def cmpN (a b : ℕ) : Ordering :=
  if a < b then .lt else if a = b then .eq else .gt

/-- `impl Ord for Edge` (src/lib.rs lines 37-44), with `self = a`, `o = b`. -/
def edgeCmp (a b : Edge) : Ordering :=
  (cmpQ b.cost a.cost).then (cmpN a.node b.node)

/-!
`BinaryHeap<Edge>` is modelled as the list of its elements: `push` conses,
`iter().any` is list membership, and `pop` removes a maximum element with
respect to `edgeCmp` (the leftmost one; the loop never holds two entries that
compare equal, because entries carry distinct node ids).
-/

/-- The element `BinaryHeap::pop` returns: a maximum of the queue under the
`Ord` instance on `Edge`. -/
def qmaxFrom (e : Edge) (l : List Edge) : Edge :=
  l.foldl (fun acc x => if edgeCmp acc x = .lt then x else acc) e

/-- `BinaryHeap::pop`: remove a maximal element, returning it and the rest. -/
def qpop : List Edge → Option (Edge × List Edge)
  | [] => none
  | e :: rest =>
    let m := qmaxFrom e rest
    some (m, (e :: rest).erase m)

/-- Outcome of a run of the search: a normal return value, a fatal
panic/assertion failure, or exhaustion of the loop fuel. -/
inductive RunResult where
  | ok : Option Path → RunResult
  | fatal : RunResult
  | outOfFuel : RunResult
deriving DecidableEq, Repr

/-- `reconstruct` (src/lib.rs lines 240-253) / `walk_backwards` as called from
src/astar.rs: walk the parent map backward from `end` until `start` is hit,
pushing `(child, cost)` pairs, then append `(start, 0)` and reverse. The
source loops without bound; the embedding takes fuel, and `none` (fuel ran
out) is distinguished from `some none` (a missing parent entry made the
source return `None`). -/
def reconstruct (parents : NodeMap Edge) (start : ℕ) :
    ℕ → ℕ → Path → Option (Option Path)
  | 0, _, _ => none
  | fuel + 1, child, path =>
    match parents.get child with
    | none => some none
    | some pe =>
      let path' := path ++ [⟨child, pe.cost⟩]
      if pe.node = start then some (some ((path' ++ [⟨start, 0⟩]).reverse))
      else reconstruct parents start fuel pe.node path'

/-- The per-search transient state: cost-so-far map, parent-edge map and
priority queue, as held by `a_star`'s locals / by `AStarAcceleration`. -/
structure SearchState where
  node_cost : NodeMap Cost
  parents : NodeMap Edge
  queue : List Edge
deriving Repr

/-- The body of the `for ... in g.edges(cur)` loop of `a_star`, traversing
the edge list of the popped node. Each step re-reads `node_cost[cur]`
(a panic — `none` — if absent, as the `Index` impl in src/map.rs panics),
computes the tentative cost, and on improvement updates cost and parent and
pushes the child unless it is already in the queue. -/
def relaxEdges (h : ℕ → Cost) (cur : ℕ) :
    List Edge → SearchState → Option SearchState
  | [], σ => some σ
  | e :: es, σ =>
    match σ.node_cost.get cur with
    | none => none
    | some curCost =>
      let c := curCost + e.cost
      let improve :=
        match σ.node_cost.get e.node with
        | none => true
        | some old => decide (c < old)
      if improve then
        let σ' : SearchState :=
          { σ with
            node_cost := σ.node_cost.insert e.node c
            parents := σ.parents.insert e.node ⟨cur, e.cost⟩ }
        if σ'.queue.any fun q => q.node = e.node then relaxEdges h cur es σ'
        else relaxEdges h cur es { σ' with queue := ⟨e.node, c + h e.node⟩ :: σ'.queue }
      else relaxEdges h cur es σ

/-- The `while let Some(Edge { node: cur, .. }) = queue.pop()` loop of
`a_star`, parameterised by the edge lookup `E` (so that the src/lib.rs
variant over `AdjacencyList` and the src/astar.rs variant over
`ImmutableAdjacencyList` share one definition — their loop bodies are
textually identical). `E n = none` models the out-of-bounds panic of
`edges(n)` on an invalid node. -/
def searchLoop (E : ℕ → Option (List Edge)) (h : ℕ → Cost) (start endN : ℕ) :
    ℕ → SearchState → RunResult
  | 0, _ => .outOfFuel
  | fuel + 1, σ =>
    match qpop σ.queue with
    | none => .ok none
    | some (e, rest) =>
      if e.node = endN then
        match reconstruct σ.parents start (fuel + 1) endN [] with
        | none => .outOfFuel
        | some r => .ok r
      else
        match E e.node with
        | none => .fatal
        | some edges =>
          match relaxEdges h e.node edges { σ with queue := rest } with
          | none => .fatal
          | some σ' => searchLoop E h start endN fuel σ'

/-- The edge lookup of the src/lib.rs `a_star`: `AdjacencyList::edges`
asserts validity and returns the node's list. -/
def edgesOf (g : AdjacencyList) (n : ℕ) : Option (List Edge) :=
  g.nodes.get? n

/-- The initial transient state built by `a_star` before entering the loop:
`node_cost.insert(start, 0.0)` and `queue.push(edge(start, 0.0))` on empty
structures. -/
def initState (start : ℕ) : SearchState :=
  ⟨(NodeMap.new Cost).insert start 0, NodeMap.new Edge, [⟨start, 0⟩]⟩

/-- `a_star` from src/lib.rs lines 266-302 (the function `shortest_path`
forwards to it unchanged): return `None` on an empty graph or a same-node
query, otherwise seed the transient state and run the search loop. -/
def a_star (g : AdjacencyList) (start endN : ℕ) (h : ℕ → Cost)
    (fuel : ℕ) : RunResult :=
  if g.nodes.isEmpty ∨ start = endN then .ok none
  else searchLoop (edgesOf g) h start endN fuel (initState start)

/-! ### The locked graph and the search accelerator (src/astar.rs) -/

/-- `NodeInfo` from src/astar.rs. -/
structure NodeInfo where
  offset : ℕ
  len : ℕ
deriving DecidableEq, Repr

/-- `ImmutableAdjacencyList` from src/astar.rs. -/
structure ImmutableAdjacencyList where
  node_data : List Edge
  node_info : List NodeInfo
deriving DecidableEq, Repr

/-- The body of `lock_graph`'s loop, with the running offset made explicit
(in the source the offset is read back as `node_data.len()`, which equals the
sum of the lengths of the lists already copied — the value threaded here). -/
def lockAux : List (List Edge) → ℕ → List Edge × List NodeInfo
  | [], _ => ([], [])
  | es :: rest, off =>
    let r := lockAux rest (off + es.length)
    (es ++ r.1, ⟨off, es.length⟩ :: r.2)

/-- `lock_graph` from src/astar.rs lines 17-34: copy every per-node edge
list, in ascending node-id order, into one flat array, recording each node's
`(offset, len)` pair at the running offset. -/
def lock_graph (g : AdjacencyList) : ImmutableAdjacencyList :=
  let r := lockAux g.nodes 0
  ⟨r.1, r.2⟩

/-- `ImmutableAdjacencyList::edges` (src/astar.rs lines 38-41): look up the
`(offset, len)` pair of `n` — a panic (`none`) when `n` is out of range —
and slice the flat edge array. -/
def ImmutableAdjacencyList.edges (l : ImmutableAdjacencyList) (n : ℕ) :
    Option (List Edge) :=
  (l.node_info.get? n).map fun i => (l.node_data.drop i.offset).take i.len

/-- `ImmutableAdjacencyList::len`. -/
def ImmutableAdjacencyList.len (l : ImmutableAdjacencyList) : ℕ :=
  l.node_info.length

/-- `AStarAcceleration` from src/astar.rs: the locked graph plus the three
reusable transient structures. -/
structure AStarAcceleration where
  graph : ImmutableAdjacencyList
  node_cost : NodeMap Cost
  parents : NodeMap Edge
  queue : List Edge
deriving Repr

/-- `AStarAcceleration::new`: lock the graph and allocate empty transient
structures (`with_capacity` reserves storage only, which is not observable). -/
def AStarAcceleration.new (g : AdjacencyList) : AStarAcceleration :=
  ⟨lock_graph g, NodeMap.new Cost, NodeMap.new Edge, []⟩

/-- `AStarAcceleration::clear_transients` (src/astar.rs lines 70-74). -/
def AStarAcceleration.clear_transients (acc : AStarAcceleration) :
    AStarAcceleration :=
  { acc with
    node_cost := acc.node_cost.clear
    parents := acc.parents.clear
    queue := [] }

/-- `a_star` from src/astar.rs lines 82-137: clear the transients, return
`None` on an empty locked graph or a same-node query, then seed the cleared
transient state and run the identical search loop over the locked graph. -/
def a_star_acc (acc : AStarAcceleration) (start endN : ℕ) (h : ℕ → Cost)
    (fuel : ℕ) : RunResult :=
  let acc := acc.clear_transients
  if acc.graph.len = 0 ∨ start = endN then .ok none
  else
    searchLoop acc.graph.edges h start endN fuel
      ⟨acc.node_cost.insert start 0, acc.parents, [⟨start, 0⟩]⟩

/-! ### Specification-side notions used to state the claims -/

/-- Reachability by a sequence of directed edges, over an abstract edge
lookup: `GReach E s n` holds when some chain of edges leads from `s` to `n`. -/
inductive GReach (E : ℕ → Option (List Edge)) (s : ℕ) : ℕ → Prop where
  | refl : GReach E s s
  | tail {u : ℕ} {l : List Edge} {e : Edge} :
      GReach E s u → E u = some l → e ∈ l → GReach E s e.node

/-- Sum of the incremental weights of a path. -/
def pathCost (p : Path) : Cost :=
  (p.map Edge.cost).foldr (· + ·) 0

/-- Consecutive-edge validity of a path tail: `pathLinks g a rest` holds when,
starting from node `a`, each pair `(n, w)` in `rest` is an actual directed
edge `a -> n` of weight `w` in `g`, continuing from `n`. -/
def pathLinks (g : AdjacencyList) : ℕ → List Edge → Bool
  | _, [] => true
  | a, e :: rest => ((g.nodes.getD a []).contains ⟨e.node, e.cost⟩ && pathLinks g e.node rest)

/-- The well-formedness of a returned path, as claimed: non-empty, first pair
exactly `(start, 0)`, consecutive pairs joined by actual graph edges whose
weight is the pair's weight, and the last node is `end`. -/
def pathWF (g : AdjacencyList) (start endN : ℕ) (p : Path) : Bool :=
  match p with
  | [] => false
  | e :: rest =>
    (e.node = start : Bool) && (e.cost = 0 : Bool) && pathLinks g start rest &&
      ((p.getLast?.map Edge.node) = some endN : Bool)

/-- Modelled from the spec: the independent Dijkstra/BFS-with-weights
reference against which §8 compares `search`'s cost. One relaxation sweep
over every node's edge list. -/
def refRelax (g : AdjacencyList) (m : NodeMap Cost) : NodeMap Cost :=
  (List.range g.nodes.length).foldl
    (fun m u =>
      match m.get u with
      | none => m
      | some du =>
        (g.nodes.getD u []).foldl
          (fun m e =>
            match m.get e.node with
            | none => m.insert e.node (du + e.cost)
            | some dv => if du + e.cost < dv then m.insert e.node (du + e.cost) else m)
          m)
    m

/-- Modelled from the spec: iterate the relaxation sweep once per node
(Bellman–Ford); for non-negative weights the resulting map holds the exact
minimal start-to-node path costs. -/
def refDist (g : AdjacencyList) (start : ℕ) : NodeMap Cost :=
  (List.range g.nodes.length).foldl (fun m _ => refRelax g m)
    ((NodeMap.new Cost).insert start 0)

/-! ### Concrete graphs used as witnesses and counterexamples -/

/-- Four nodes `0,1,2,3` with edges `0→1 (10)`, `0→3 (9)`, `0→2 (1)`,
`2→1 (1)`, `1→3 (1)`; the shortest path from `0` to `3` is
`0→2→1→3` of cost `3`. -/
def gBug : AdjacencyList :=
  ⟨[[⟨1, 10⟩, ⟨3, 9⟩, ⟨2, 1⟩], [⟨3, 1⟩], [⟨1, 1⟩], []], GraphType.Directed⟩

/-- The trivial three-node example graph of the spec: edges `0→1 (1)`,
`0→2 (1)`. -/
def gTriv : AdjacencyList :=
  ⟨[[⟨1, 1⟩, ⟨2, 1⟩], [], []], GraphType.Directed⟩

/-- A single node with no edges. -/
def gOne : AdjacencyList := ⟨[[]], GraphType.Directed⟩

/-- Sum of the per-node edge-list lengths of the first `n` nodes: the
running offset of `lock_graph` when it reaches node `n`. -/
def sumTake (nodes : List (List Edge)) (n : ℕ) : ℕ :=
  ((nodes.take n).map List.length).sum

/-- The graphs constructible through the public API: `new`, then any
sequence of `add_node` and successfully returning `add_edge` calls. -/
inductive Constructed : AdjacencyList → Prop where
  | new (ty : GraphType) : Constructed (AdjacencyList.new ty)
  | add_node {g : AdjacencyList} : Constructed g → Constructed g.add_node.2
  | add_edge {g g' : AdjacencyList} {a b : ℕ} {c : Cost} :
      Constructed g → g.add_edge a b c = some g' → Constructed g'

/-- Pointwise equality of the observable contents of two node maps. -/
def mapEquiv (m₁ m₂ : NodeMap α) : Prop :=
  ∀ n, m₁.get n = m₂.get n

/-- Pointwise equality of two transient states: equal observable map
contents and equal queues. -/
def stEquiv (σ₁ σ₂ : SearchState) : Prop :=
  mapEquiv σ₁.node_cost σ₂.node_cost ∧ mapEquiv σ₁.parents σ₂.parents ∧
    σ₁.queue = σ₂.queue

/-- `stEquiv` lifted to the optional result of a relaxation pass. -/
def optEquiv : Option SearchState → Option SearchState → Prop
  | none, none => True
  | some σ₁, some σ₂ => stEquiv σ₁ σ₂
  | _, _ => False

/-- Every parent entry records an actual graph edge: if `P.get n = some pe`
then the graph has the directed edge `pe.node -> n` with weight `pe.cost`. -/
def ParentsWF (E : ℕ → Option (List Edge)) (P : NodeMap Edge) : Prop :=
  ∀ n pe, P.get n = some pe → ∃ l, E pe.node = some l ∧ (⟨n, pe.cost⟩ : Edge) ∈ l

/-- A forward path segment rooted after node `m`: each pair `(n, w)` has the
parent entry `(m, w)` recorded for `n`, continuing from `n`. -/
def SegOk (P : NodeMap Edge) : ℕ → List Edge → Prop
  | _, [] => True
  | m, e :: t => P.get e.node = some ⟨m, e.cost⟩ ∧ SegOk P e.node t

/-- Following parent entries from `n` eventually stops at `s`. -/
inductive Reaches (P : NodeMap Edge) (s : ℕ) : ℕ → Prop where
  | base : Reaches P s s
  | step {n : ℕ} {pe : Edge} :
      P.get n = some pe → Reaches P s pe.node → Reaches P s n

/-- Following parent entries from `n` stops at `s` without ever passing
through the node `a`. -/
inductive ReachesAvoid (P : NodeMap Edge) (s a : ℕ) : ℕ → Prop where
  | base : s ≠ a → ReachesAvoid P s a s
  | step {n : ℕ} {pe : Edge} :
      n ≠ a → P.get n = some pe → ReachesAvoid P s a pe.node →
      ReachesAvoid P s a n

/-- Well-formedness of an edge lookup: every edge of a listed node points to
a node that is itself listed and carries a non-negative weight. -/
def EdgesWF (E : ℕ → Option (List Edge)) : Prop :=
  ∀ n l, E n = some l → ∀ e ∈ l, (E e.node).isSome ∧ 0 ≤ e.cost

/-- The weights appearing in the graph. -/
def weightMem (E : ℕ → Option (List Edge)) (c : ℚ) : Prop :=
  ∃ n l e, E n = some l ∧ e ∈ l ∧ e.cost = c

/-- All sums of graph weights: every cost value the search ever records lies
in this additively closed set, which is well-founded under `<` when the
weights are finitely many and non-negative. -/
def VSet (E : ℕ → Option (List Edge)) : Set ℚ :=
  (AddSubmonoid.closure {c : ℚ | weightMem E c} : Set ℚ)

/-- The loop invariant of the search, relating the transient state to the
edge lookup `E`, the start node `s` and the goal `endN`. -/
structure Inv (E : ℕ → Option (List Edge)) (s endN : ℕ) (σ : SearchState) :
    Prop where
  qCosted : ∀ e ∈ σ.queue, (σ.node_cost.get e.node).isSome
  qNodup : (σ.queue.map Edge.node).Nodup
  costedValid : ∀ n, (σ.node_cost.get n).isSome → (E n).isSome
  startZero : σ.node_cost.get s = some 0
  costNonneg : ∀ n c, σ.node_cost.get n = some c → 0 ≤ c
  parentEdge : ParentsWF E σ.parents
  parentCost : ∀ n pe, σ.parents.get n = some pe → 0 ≤ pe.cost ∧
      ∃ cn cp, σ.node_cost.get n = some cn ∧
        σ.node_cost.get pe.node = some cp ∧ cp + pe.cost ≤ cn
  startNoParent : σ.parents.get s = none
  reachesAll : ∀ n, (σ.node_cost.get n).isSome → Reaches σ.parents s n
  relaxedOrQueued : ∀ n cn, σ.node_cost.get n = some cn →
      (∃ e ∈ σ.queue, e.node = n) ∨
      ∀ l, E n = some l → ∀ e ∈ l,
        ∃ c, σ.node_cost.get e.node = some c ∧ c ≤ cn + e.cost
  gReach : ∀ n, (σ.node_cost.get n).isSome → GReach E s n
  endQueued : (σ.node_cost.get endN).isSome → ∃ e ∈ σ.queue, e.node = endN
  inV : ∀ n c, σ.node_cost.get n = some c → c ∈ VSet E

/-- The invariant holding part-way through the relaxation of the popped
node `cur`'s edge list: all `Inv` fields except that `cur` itself is neither
in the queue nor yet fully relaxed. -/
structure MidInv (E : ℕ → Option (List Edge)) (s endN cur : ℕ)
    (σ : SearchState) : Prop where
  qCosted : ∀ e ∈ σ.queue, (σ.node_cost.get e.node).isSome
  qNodup : (σ.queue.map Edge.node).Nodup
  costedValid : ∀ n, (σ.node_cost.get n).isSome → (E n).isSome
  startZero : σ.node_cost.get s = some 0
  costNonneg : ∀ n c, σ.node_cost.get n = some c → 0 ≤ c
  parentEdge : ParentsWF E σ.parents
  parentCost : ∀ n pe, σ.parents.get n = some pe → 0 ≤ pe.cost ∧
      ∃ cn cp, σ.node_cost.get n = some cn ∧
        σ.node_cost.get pe.node = some cp ∧ cp + pe.cost ≤ cn
  startNoParent : σ.parents.get s = none
  reachesAll : ∀ n, (σ.node_cost.get n).isSome → Reaches σ.parents s n
  relaxedOrQueuedX : ∀ n cn, σ.node_cost.get n = some cn → n ≠ cur →
      (∃ e ∈ σ.queue, e.node = n) ∨
      ∀ l, E n = some l → ∀ x ∈ l,
        ∃ c, σ.node_cost.get x.node = some c ∧ c ≤ cn + x.cost
  gReach : ∀ n, (σ.node_cost.get n).isSome → GReach E s n
  endQueued : (σ.node_cost.get endN).isSome → ∃ e ∈ σ.queue, e.node = endN
  inV : ∀ n c, σ.node_cost.get n = some c → c ∈ VSet E

/-- Comparison of optional costs with `none` as "undiscovered", the top
element: the search only ever moves a node's cost downward in this order. -/
def costLE : Option ℚ → Option ℚ → Prop
  | _, none => True
  | some a, some b => a ≤ b
  | none, some _ => False

/-- The strict order on `Edge` induced by the source's `Ord` instance:
`a` is below `b` when `a` has the larger cost, or equal cost and the
smaller node id. -/
def EdgeBelow (a b : Edge) : Prop :=
  b.cost < a.cost ∨ (b.cost = a.cost ∧ a.node < b.node)

/-! ### Basic lemmas about the dense node-indexed containers -/

namespace NodeMap

theorem length_insert (m : NodeMap α) (n : ℕ) (t : α) :
    (m.insert n t).v.length = max m.v.length (n + 1) := by
  simp [insert]
  omega

theorem get_eq (m : NodeMap α) (n : ℕ) : m.get n = (m.v[n]?).getD none :=
  List.getD_eq_getElem?_getD m.v n none

theorem get_insert (m : NodeMap α) (n k : ℕ) (t : α) :
    (m.insert n t).get k = if k = n then some t else m.get k := by
  have hlen : n < (m.v ++ List.replicate (n + 1 - m.v.length) none).length := by
    simp; omega
  by_cases hk : k = n
  · subst hk
    rw [get_eq]
    simp only [insert]
    rw [List.getElem?_set_eq_of_lt _ hlen]
    simp
  · rw [get_eq, get_eq]
    simp only [insert]
    rw [List.getElem?_set_ne (fun h => hk h.symm)]
    by_cases hlt : k < m.v.length
    · rw [List.getElem?_append_left hlt]
      simp [hk]
    · rw [List.getElem?_append_right (by omega)]
      have h1 : m.v[k]? = none := List.getElem?_eq_none (by omega)
      rw [h1]
      simp only [List.getElem?_replicate, hk, if_false]
      split_ifs <;> rfl

theorem get_insert_self (m : NodeMap α) (n : ℕ) (t : α) :
    (m.insert n t).get n = some t := by
  rw [get_insert]; simp

theorem get_insert_ne (m : NodeMap α) {n k : ℕ} (t : α) (h : k ≠ n) :
    (m.insert n t).get k = m.get k := by
  rw [get_insert]; simp [h]

theorem get_new (n : ℕ) : (NodeMap.new α).get n = none := by
  simp [new, get]

theorem get_clear (m : NodeMap α) (n : ℕ) : m.clear.get n = none := by
  rw [get_eq]
  simp only [clear]
  rw [List.getElem?_map]
  cases m.v[n]? <;> rfl

theorem length_clear (m : NodeMap α) : m.clear.v.length = m.v.length := by
  simp [clear]

end NodeMap

namespace NodeSet

theorem has_clear (s : NodeSet) (n : ℕ) : s.clear.has n = false := by
  simp only [clear, has, List.getD_eq_getElem?_getD]
  rw [List.getElem?_map]
  cases s.v[n]? <;> rfl

theorem set_length_clear (s : NodeSet) : s.clear.v.length = s.v.length := by
  simp [clear]

end NodeSet

/-! ### The Edge ordering and the priority queue pop -/

theorem edgeCmp_lt_iff (a b : Edge) : edgeCmp a b = .lt ↔ EdgeBelow a b := by
  unfold edgeCmp cmpQ cmpN
  rcases lt_trichotomy b.cost a.cost with h | h | h
  · rw [if_pos h]
    simp only [Ordering.then]
    exact iff_of_true (by simp) (Or.inl h)
  · rw [if_neg (by rw [h]; exact lt_irrefl _), if_pos h]
    simp only [Ordering.then]
    rcases lt_trichotomy a.node b.node with h2 | h2 | h2
    · rw [if_pos h2]
      exact iff_of_true (by simp) (Or.inr ⟨h, h2⟩)
    · rw [if_neg (by omega), if_pos h2]
      refine iff_of_false (by simp) ?_
      rintro (h3 | ⟨h3, h4⟩) <;> [linarith; omega]
    · rw [if_neg (by omega), if_neg (by omega)]
      refine iff_of_false (by simp) ?_
      rintro (h3 | ⟨h3, h4⟩) <;> [linarith; omega]
  · rw [if_neg (by linarith), if_neg (by linarith)]
    simp only [Ordering.then]
    refine iff_of_false (by simp) ?_
    rintro (h3 | ⟨h3, h4⟩) <;> linarith

theorem edgeCmp_gt_iff (a b : Edge) : edgeCmp a b = .gt ↔ EdgeBelow b a := by
  unfold edgeCmp cmpQ cmpN
  rcases lt_trichotomy b.cost a.cost with h | h | h
  · rw [if_pos h]
    simp only [Ordering.then]
    refine iff_of_false (by simp) ?_
    rintro (h3 | ⟨h3, h4⟩) <;> linarith
  · rw [if_neg (by rw [h]; exact lt_irrefl _), if_pos h]
    simp only [Ordering.then]
    rcases lt_trichotomy a.node b.node with h2 | h2 | h2
    · rw [if_pos h2]
      refine iff_of_false (by simp) ?_
      rintro (h3 | ⟨h3, h4⟩) <;> [linarith; omega]
    · rw [if_neg (by omega), if_pos h2]
      refine iff_of_false (by simp) ?_
      rintro (h3 | ⟨h3, h4⟩) <;> [linarith; omega]
    · rw [if_neg (by omega), if_neg (by omega)]
      exact iff_of_true (by simp) (Or.inr ⟨h.symm, h2⟩)
  · rw [if_neg (by linarith), if_neg (by linarith)]
    simp only [Ordering.then]
    exact iff_of_true (by simp) (Or.inl h)

theorem edgeBelow_irrefl (a : Edge) : ¬EdgeBelow a a := by
  rintro (h | ⟨h1, h2⟩)
  · exact lt_irrefl _ h
  · exact lt_irrefl _ h2

theorem edgeBelow_trans {a b c : Edge} (h1 : EdgeBelow a b) (h2 : EdgeBelow b c) :
    EdgeBelow a c := by
  rcases h1 with h1 | ⟨h1, h1'⟩ <;> rcases h2 with h2 | ⟨h2, h2'⟩
  · exact Or.inl (by linarith)
  · exact Or.inl (by linarith)
  · exact Or.inl (by linarith)
  · exact Or.inr ⟨by linarith, by omega⟩

theorem edgeBelow_total (a b : Edge) : EdgeBelow a b ∨ a = b ∨ EdgeBelow b a := by
  rcases lt_trichotomy a.cost b.cost with h | h | h
  · exact Or.inr (Or.inr (Or.inl h))
  · rcases lt_trichotomy a.node b.node with h2 | h2 | h2
    · exact Or.inl (Or.inr ⟨h.symm, h2⟩)
    · exact Or.inr (Or.inl (by cases a; cases b; simp_all))
    · exact Or.inr (Or.inr (Or.inr ⟨h, h2⟩))
  · exact Or.inl (Or.inl h)

theorem qmaxFrom_cons (y z : Edge) (t : List Edge) :
    qmaxFrom y (z :: t) = qmaxFrom (if edgeCmp y z = .lt then z else y) t := rfl

theorem qmaxFrom_mem (y : Edge) (l : List Edge) : qmaxFrom y l = y ∨ qmaxFrom y l ∈ l := by
  induction l generalizing y with
  | nil => exact Or.inl rfl
  | cons z t ih =>
    rw [qmaxFrom_cons]
    rcases ih (if edgeCmp y z = .lt then z else y) with h | h
    · rw [h]
      split_ifs
      · exact Or.inr (List.mem_cons_self z t)
      · exact Or.inl rfl
    · exact Or.inr (List.mem_cons_of_mem z h)

theorem qmaxFrom_not_below (y : Edge) (l : List Edge) :
    ∀ x ∈ y :: l, ¬EdgeBelow (qmaxFrom y l) x := by
  induction l generalizing y with
  | nil =>
    intro x hx
    rw [List.mem_singleton] at hx
    subst hx
    exact edgeBelow_irrefl x
  | cons z t ih =>
    intro x hx
    rw [qmaxFrom_cons]
    by_cases hc : edgeCmp y z = .lt
    · rw [if_pos hc]
      have hyz : EdgeBelow y z := (edgeCmp_lt_iff y z).mp hc
      have hz : ¬EdgeBelow (qmaxFrom z t) z := ih z z (List.mem_cons_self z t)
      rcases List.mem_cons.mp hx with rfl | hx2
      · intro hmy
        exact hz (edgeBelow_trans hmy hyz)
      · rcases List.mem_cons.mp hx2 with rfl | hx3
        · exact hz
        · exact ih z x (List.mem_cons_of_mem z hx3)
    · rw [if_neg hc]
      have hyz : ¬EdgeBelow y z := fun hb => hc ((edgeCmp_lt_iff y z).mpr hb)
      have hy : ¬EdgeBelow (qmaxFrom y t) y := ih y y (List.mem_cons_self y t)
      rcases List.mem_cons.mp hx with rfl | hx2
      · exact hy
      · rcases List.mem_cons.mp hx2 with rfl | hx3
        · intro hmx
          rcases edgeBelow_total y x with h4 | h4 | h4
          · exact hyz h4
          · exact hy (by nth_rewrite 2 [h4]; exact hmx)
          · exact hy (edgeBelow_trans hmx h4)
        · exact ih y x (List.mem_cons_of_mem y hx3)

theorem qpop_eq_none_iff (q : List Edge) : qpop q = none ↔ q = [] := by
  cases q <;> simp [qpop]

theorem qpop_some (q : List Edge) (e : Edge) (rest : List Edge)
    (hpop : qpop q = some (e, rest)) :
    e ∈ q ∧ rest = q.erase e ∧ ∀ x ∈ q, ¬EdgeBelow e x := by
  cases q with
  | nil => simp [qpop] at hpop
  | cons y t =>
    simp only [qpop, Option.some.injEq, Prod.mk.injEq] at hpop
    obtain ⟨rfl, rfl⟩ := hpop
    refine ⟨?_, rfl, qmaxFrom_not_below y t⟩
    rcases qmaxFrom_mem y t with h | h
    · rw [h]; exact List.mem_cons_self y t
    · exact List.mem_cons_of_mem y h


/-! ### Claim C9: clear resets the dense containers without shrinking them -/

/-- C9: after `clear()`, every node id — including ids beyond the backing
length — reads as absent (`get` returns `none` on the map, `has` returns
`false` on the set), while the backing storage keeps its length, for both the
`NodeSet` and the (spec-modelled) `NodeMap` clear used as accelerator
scratch space. -/
theorem c9_clear_resets {α : Type} (s : NodeSet) (m : NodeMap α) (n k : ℕ) :
    s.clear.has n = false ∧ m.clear.get k = none ∧
    s.clear.v.length = s.v.length ∧ m.clear.v.length = m.v.length :=
  ⟨NodeSet.has_clear s n, NodeMap.get_clear m k,
    NodeSet.set_length_clear s, NodeMap.length_clear m⟩

/-! ### Claim C8: adding an existing directed edge is a no-op -/

/-- C8: for valid nodes `a`, `b` with an existing directed edge `a -> b`,
`add_edge(a, b, w)` returns with the entire graph unchanged, for any weight:
no parallel edge is created and the first-inserted weight stays. -/
theorem c8_add_edge_noop (g : AdjacencyList) (a b : ℕ) (c : Cost)
    (hva : g.is_valid a = true) (hvb : g.is_valid b = true)
    (hab : g.has_directed_edge_unchecked a b = true) :
    g.add_edge a b c = some g := by
  unfold AdjacencyList.add_edge
  rw [if_neg (by simp [hva, hvb]), if_pos (by exact hab)]

/-- Witness for C8: in the concrete graph `gBug` the edge `0 -> 3` exists
with weight `9`; re-adding it with weight `77` leaves the graph unchanged. -/
theorem c8_witness :
    gBug.is_valid 0 = true ∧ gBug.is_valid 3 = true ∧
    gBug.has_directed_edge_unchecked 0 3 = true ∧
    gBug.add_edge 0 3 77 = some gBug :=
  ⟨by with_unfolding_all decide, by with_unfolding_all decide,
    by with_unfolding_all decide,
    c8_add_edge_noop gBug 0 3 77 (by with_unfolding_all decide)
      (by with_unfolding_all decide) (by with_unfolding_all decide)⟩

/-! ### Claim C3: which entry the priority queue pops -/

/-- C3 (counterexample): with two queue entries of equal priority `5` on
nodes `0` and `1`, the pop returns node `1`, not the smaller node id `0`;
accordingly the `Ord` instance places `(node 0, cost 5)` below
`(node 1, cost 5)`, i.e. the heap is not a max-heap over `(-priority,
-nodeId)`. -/
theorem c3_counterexample :
    qpop [⟨0, 5⟩, ⟨1, 5⟩] = some ((⟨1, 5⟩ : Edge), ([⟨0, 5⟩] : List Edge)) ∧
    edgeCmp ⟨0, 5⟩ ⟨1, 5⟩ = .lt ∧ ¬(1 : ℕ) ≤ 0 := by
  refine ⟨by with_unfolding_all decide, by with_unfolding_all decide, by decide⟩

/-- C3 (amended): the entry popped from the priority queue is one with the
smallest priority value; among entries of equal smallest priority the one
with the largest (not smallest) node id is popped first — the `Ord` instance
on `Edge` makes the `BinaryHeap` a max-heap over `(-priority, +nodeId)`. -/
theorem c3_pop_min_priority_max_id (q : List Edge) (e : Edge) (rest : List Edge)
    (hpop : qpop q = some (e, rest)) :
    e ∈ q ∧ (∀ x ∈ q, e.cost ≤ x.cost) ∧
      ∀ x ∈ q, x.cost = e.cost → x.node ≤ e.node := by
  obtain ⟨hmem, -, hmax⟩ := qpop_some q e rest hpop
  refine ⟨hmem, ?_, ?_⟩
  · intro x hx
    by_contra hlt
    push_neg at hlt
    exact hmax x hx (Or.inl hlt)
  · intro x hx hcost
    by_contra hlt
    push_neg at hlt
    exact hmax x hx (Or.inr ⟨hcost, hlt⟩)

/-- Witness for C3 (amended) at a concrete queue. -/
theorem c3_witness :
    qpop [⟨0, 5⟩, ⟨2, 4⟩, ⟨1, 5⟩] = some ((⟨2, 4⟩ : Edge), ([⟨0, 5⟩, ⟨1, 5⟩] : List Edge)) ∧
    ((⟨2, 4⟩ : Edge) ∈ [(⟨0, 5⟩ : Edge), ⟨2, 4⟩, ⟨1, 5⟩] ∧
      (∀ x ∈ [(⟨0, 5⟩ : Edge), ⟨2, 4⟩, ⟨1, 5⟩], (4 : ℚ) ≤ x.cost) ∧
      ∀ x ∈ [(⟨0, 5⟩ : Edge), ⟨2, 4⟩, ⟨1, 5⟩], x.cost = (4 : ℚ) → x.node ≤ 2) :=
  ⟨by with_unfolding_all decide,
    c3_pop_min_priority_max_id [⟨0, 5⟩, ⟨2, 4⟩, ⟨1, 5⟩] ⟨2, 4⟩ [⟨0, 5⟩, ⟨1, 5⟩]
      (by with_unfolding_all decide)⟩

/-! ### Claim C1: the search does not return a minimal-cost path -/

/-- C1 (the code bug at a concrete input): on the four-node graph `gBug`
with the constant-zero heuristic — which is admissible and consistent —
`a_star` returns the path `[(0,0),(3,9)]` of total cost `9`, although the
valid path `0 -> 2 -> 1 -> 3` has total cost `3` and the reference
Dijkstra/Bellman-Ford distance of node `3` is `3`. The search pops the goal
while a strictly cheaper route is pending, because the improved cost of node
`1` (from `10` to `2`) never updates the stale queue priority `10`. -/
theorem c1_astar_suboptimal :
    a_star gBug 0 3 (fun _ => 0) 10 = .ok (some [⟨0, 0⟩, ⟨3, 9⟩]) ∧
    pathCost [⟨0, 0⟩, ⟨3, 9⟩] = 9 ∧
    (refDist gBug 0).get 3 = some 3 ∧
    pathWF gBug 0 3 [⟨0, 0⟩, ⟨2, 1⟩, ⟨1, 1⟩, ⟨3, 1⟩] = true ∧
    pathCost [⟨0, 0⟩, ⟨2, 1⟩, ⟨1, 1⟩, ⟨3, 1⟩] = 3 ∧
    ¬(9 : Cost) ≤ 3 := by
  refine ⟨by with_unfolding_all decide, by with_unfolding_all decide,
    by with_unfolding_all decide, by with_unfolding_all decide,
    by with_unfolding_all decide, by with_unfolding_all decide⟩

/-! ### Claim C6 (counterexample part): an invalid end id is not fatal -/

/-- C6 (counterexample): on the one-node graph, a query with valid start `0`
and invalid end `5` (with `start ≠ end`) terminates normally with `None`
instead of failing fast — refuting the claim that any invalid node id makes
the search panic rather than return a normal result. -/
theorem c6_counterexample :
    gOne.is_valid 5 = false ∧ gOne.nodes ≠ [] ∧
    a_star gOne 0 5 (fun _ => 0) 3 = .ok none ∧
    RunResult.ok none ≠ .fatal := by
  refine ⟨by decide, by decide, by with_unfolding_all decide, by decide⟩



/-! ### Claim C7: the locked graph agrees with the mutable graph -/

theorem lockAux_data (nodes : List (List Edge)) (off : ℕ) :
    (lockAux nodes off).1 = nodes.flatten := by
  induction nodes generalizing off with
  | nil => rfl
  | cons es rest ih => simp [lockAux, ih]

theorem lockAux_info_length (nodes : List (List Edge)) (off : ℕ) :
    (lockAux nodes off).2.length = nodes.length := by
  induction nodes generalizing off with
  | nil => rfl
  | cons es rest ih => simp [lockAux, ih]

theorem lockAux_info_get (nodes : List (List Edge)) :
    ∀ (off n : ℕ), n < nodes.length →
      (lockAux nodes off).2.get? n =
        some ⟨off + sumTake nodes n, (nodes.getD n []).length⟩ := by
  induction nodes with
  | nil => intro off n hn; simp at hn
  | cons es rest ih =>
    intro off n hn
    cases n with
    | zero => simp [lockAux, sumTake]
    | succ n =>
      have h1 : (lockAux (es :: rest) off).2 =
          (⟨off, es.length⟩ : NodeInfo) :: (lockAux rest (off + es.length)).2 := rfl
      rw [h1, List.get?_eq_getElem?, List.getElem?_cons_succ, ← List.get?_eq_getElem?]
      rw [ih (off + es.length) n (by simpa using hn)]
      have h2 : sumTake (es :: rest) (n + 1) = es.length + sumTake rest n := by
        simp [sumTake, List.take_succ_cons]
      have h3 : (es :: rest).getD (n + 1) [] = rest.getD n [] := rfl
      rw [h2, h3]
      congr 2
      omega

theorem flatten_slice (L : List (List Edge)) :
    ∀ n, n < L.length →
      (L.flatten.drop (sumTake L n)).take (L.getD n []).length = L.getD n [] := by
  induction L with
  | nil => intro n hn; simp at hn
  | cons es rest ih =>
    intro n hn
    cases n with
    | zero =>
      have h0 : sumTake (es :: rest) 0 = 0 := rfl
      have h1 : (es :: rest).getD 0 [] = es := rfl
      rw [h0, h1, List.flatten_cons, List.drop_zero, List.take_left]
    | succ n =>
      have h2 : sumTake (es :: rest) (n + 1) = es.length + sumTake rest n := by
        simp [sumTake, List.take_succ_cons]
      have h3 : (es :: rest).getD (n + 1) [] = rest.getD n [] := rfl
      rw [h2, h3, List.flatten_cons, List.drop_append]
      exact ih n (by simpa using hn)

/-- C7: locking a graph is a deterministic, purely functional conversion;
the locked structure has one `(offset, len)` entry per node of `g` (so
`len()` equals `g`'s node count), and for every valid node `n` the locked
`edges(n)` slice is exactly `g`'s per-node edge list. -/
theorem c7_lock_graph (g : AdjacencyList) (n : ℕ) (hn : n < g.size) :
    (lock_graph g).len = g.size ∧
    (lock_graph g).edges n = some (g.nodes.getD n []) := by
  constructor
  · simp [lock_graph, ImmutableAdjacencyList.len, lockAux_info_length,
      AdjacencyList.size]
  · show ((lockAux g.nodes 0).2.get? n).map _ = _
    rw [lockAux_info_get g.nodes 0 n hn]
    have hd := lockAux_data g.nodes 0
    have hs := flatten_slice g.nodes n hn
    rw [List.getD_eq_getElem?_getD] at hs
    simp [lock_graph, hd, hs]

/-- Witness for C7 at the concrete graph `gBug`, node `0`. -/
theorem c7_witness :
    (lock_graph gBug).len = gBug.size ∧
    (lock_graph gBug).edges 0 = some (gBug.nodes.getD 0 []) :=
  c7_lock_graph gBug 0 (by decide)

/-! ### Claim C10: adding a fresh edge between distinct nodes of an
undirected graph always hits the reverse-edge assertion -/

theorem getDset_self {β : Type} (l : List β) (i : ℕ) (x d : β) (h : i < l.length) :
    (l.set i x).getD i d = x := by
  rw [List.getD_eq_getElem?_getD, List.getElem?_set_eq_of_lt x h]
  rfl

theorem getDset_ne {β : Type} (l : List β) (i j : ℕ) (x d : β) (h : j ≠ i) :
    (l.set i x).getD j d = l.getD j d := by
  rw [List.getD_eq_getElem?_getD, List.getElem?_set_ne (fun hh => h hh.symm),
    List.getD_eq_getElem?_getD]

/-- In any graph constructed through the API whose type is `Undirected`,
every stored edge is a self-loop: the first `add_edge(a, b, ...)` with
`a ≠ b` dies on the reverse-edge assertion, so no edge between distinct
nodes is ever stored. -/
theorem constructed_undirected_self_loops {g : AdjacencyList}
    (hg : Constructed g) :
    g.ty = GraphType.Undirected → ∀ a, ∀ e ∈ g.nodes.getD a [], e.node = a := by
  induction hg with
  | new ty =>
    intro _ a e he
    simp [AdjacencyList.new] at he
  | add_node hg ih =>
    intro hty a e he
    rename_i g0
    have hty0 : g0.ty = GraphType.Undirected := hty
    have hget : g0.add_node.2.nodes.getD a [] = g0.nodes.getD a [] ∨
        g0.add_node.2.nodes.getD a [] = [] := by
      simp only [AdjacencyList.add_node, List.getD_eq_getElem?_getD]
      by_cases hlt : a < g0.nodes.length
      · rw [List.getElem?_append_left hlt]
        left; rfl
      · right
        rw [List.getElem?_append_right (by omega)]
        rcases Nat.lt_or_ge (a - g0.nodes.length) 1 with hv | hv
        · interval_cases h : a - g0.nodes.length
          simp
        · rw [List.getElem?_eq_none (by simpa using hv)]
          rfl
    rcases hget with hget | hget
    · rw [hget] at he
      exact ih hty0 a e he
    · rw [hget] at he
      simp at he
  | add_edge hg hadd ih =>
    intro hty a e he
    rename_i g0 g1 x y c0
    unfold AdjacencyList.add_edge at hadd
    by_cases hvv : g0.is_valid x = true ∧ g0.is_valid y = true
    · rw [if_neg (by simp [hvv.1, hvv.2])] at hadd
      by_cases hxy : g0.has_directed_edge_unchecked x y = true
      · rw [if_pos hxy] at hadd
        have heq : g0 = g1 := by injection hadd
        subst heq
        exact ih hty a e he
      · rw [if_neg hxy] at hadd
        have hty0 : g0.ty = GraphType.Undirected := by
          by_contra hne
          rw [if_neg hne] at hadd
          have h5 : g1.ty = g0.ty := by
            injection hadd with h
            rw [← h]
          rw [h5] at hty
          exact hne hty
        rw [if_pos hty0] at hadd
        by_cases hrev :
            (⟨g0.nodes.set x (g0.nodes.getD x [] ++ [⟨y, c0⟩]), g0.ty⟩ :
              AdjacencyList).has_directed_edge_unchecked y x = true
        · rw [if_pos hrev] at hadd
          have hxlen : x < g0.nodes.length := by
            have h7 : g0.is_valid x = true := hvv.1
            unfold AdjacencyList.is_valid at h7
            simpa using h7
          have hyx : y = x := by
            by_contra hne
            unfold AdjacencyList.has_directed_edge_unchecked at hrev
            have hg2 : (⟨g0.nodes.set x (g0.nodes.getD x [] ++ [⟨y, c0⟩]), g0.ty⟩ :
                AdjacencyList).nodes.getD y [] = g0.nodes.getD y [] :=
              getDset_ne _ _ _ _ _ hne
            rw [hg2, List.any_eq_true] at hrev
            obtain ⟨e2, he2, he2x⟩ := hrev
            have h6 := ih hty0 y e2 he2
            rw [h6] at he2x
            simp at he2x
            exact hne he2x
          subst hyx
          have hg1 : g1 = ⟨(g0.nodes.set y (g0.nodes.getD y [] ++ [⟨y, c0⟩])).set y
              ((g0.nodes.set y (g0.nodes.getD y [] ++ [⟨y, c0⟩])).getD y [] ++
                [⟨y, c0⟩]), g0.ty⟩ := by
            injection hadd with h
            exact h.symm
          subst hg1
          simp only at he
          have hyl : y < g0.nodes.length := by
            have h7 : g0.is_valid y = true := hvv.1
            unfold AdjacencyList.is_valid at h7
            simpa using h7
          have hinner : (g0.nodes.set y (g0.nodes.getD y [] ++ [⟨y, c0⟩])).getD y []
              = g0.nodes.getD y [] ++ [⟨y, c0⟩] := getDset_self _ _ _ _ hyl
          by_cases hay : a = y
          · subst hay
            have houter : ((g0.nodes.set a (g0.nodes.getD a [] ++ [⟨a, c0⟩])).set a
                ((g0.nodes.set a (g0.nodes.getD a [] ++ [⟨a, c0⟩])).getD a [] ++
                  [⟨a, c0⟩])).getD a [] =
                (g0.nodes.set a (g0.nodes.getD a [] ++ [⟨a, c0⟩])).getD a [] ++
                  [⟨a, c0⟩] := getDset_self _ _ _ _ (by simpa using hyl)
            rw [houter, hinner] at he
            rw [List.mem_append] at he
            rcases he with he | he
            · rw [List.mem_append] at he
              rcases he with he | he
              · exact ih hty0 a e he
              · simp at he
                rw [he]
            · simp at he
              rw [he]
          · have houter : ((g0.nodes.set y (g0.nodes.getD y [] ++ [⟨y, c0⟩])).set y
                ((g0.nodes.set y (g0.nodes.getD y [] ++ [⟨y, c0⟩])).getD y [] ++
                  [⟨y, c0⟩])).getD a [] = g0.nodes.getD a [] := by
              rw [getDset_ne _ _ _ _ _ hay, getDset_ne _ _ _ _ _ hay]
            rw [houter] at he
            exact ih hty0 a e he
        · rw [if_neg hrev] at hadd
          exact absurd hadd (by simp)
    · rw [if_pos (by simpa using hvv)] at hadd
      exact absurd hadd (by simp)

/-- C10: in any constructed undirected graph, `add_edge(a, b, w)` for
distinct valid nodes with no pre-existing reverse edge `b -> a` aborts on
the `assert!(has_directed_edge_unchecked(b, a))` that runs after the forward
edge is pushed. -/
theorem c10_undirected_add_edge_fatal (g : AdjacencyList) (a b : ℕ) (c : Cost)
    (hg : Constructed g) (hty : g.ty = GraphType.Undirected)
    (hva : g.is_valid a = true) (hvb : g.is_valid b = true) (hab : a ≠ b)
    (hrev : g.has_directed_edge_unchecked b a = false) :
    g.add_edge a b c = none := by
  have hself := constructed_undirected_self_loops hg hty
  have hfwd : g.has_directed_edge_unchecked a b = false := by
    unfold AdjacencyList.has_directed_edge_unchecked
    rw [List.any_eq_false]
    intro e he
    have := hself a e he
    simp [this]
    omega
  unfold AdjacencyList.add_edge
  rw [if_neg (by simp [hva, hvb]), if_neg (by simp [hfwd]), if_pos hty]
  have hmid : (⟨g.nodes.set a (g.nodes.getD a [] ++ [⟨b, c⟩]),
      g.ty⟩ : AdjacencyList).has_directed_edge_unchecked b a = false := by
    unfold AdjacencyList.has_directed_edge_unchecked
    simp only [List.getD_eq_getElem?_getD]
    rw [List.getElem?_set_ne (fun hh => hab hh)]
    unfold AdjacencyList.has_directed_edge_unchecked at hrev
    rw [List.getD_eq_getElem?_getD] at hrev
    exact hrev
  rw [hmid]
  simp

/-- Witness for C10: on the constructed two-node undirected graph, adding
the edge `0 -> 1` is fatal. -/
theorem c10_witness :
    AdjacencyList.add_edge ⟨[[], []], GraphType.Undirected⟩ 0 1 1 = none := by
  have h0 := Constructed.new GraphType.Undirected
  have h1 := Constructed.add_node h0
  have h2 := Constructed.add_node h1
  have hc : Constructed ⟨[[], []], GraphType.Undirected⟩ := by
    simpa [AdjacencyList.new, AdjacencyList.add_node] using h2
  exact c10_undirected_add_edge_fatal _ 0 1 1 hc rfl (by decide) (by decide)
    (by decide) (by decide)



/-! ### Claim C5: searches through a reused accelerator equal fresh runs -/

theorem mapEquiv_insert {α : Type} {m₁ m₂ : NodeMap α} (h : mapEquiv m₁ m₂)
    (n : ℕ) (t : α) : mapEquiv (m₁.insert n t) (m₂.insert n t) := by
  intro k
  rw [NodeMap.get_insert, NodeMap.get_insert, h k]

theorem reconstruct_congr {P₁ P₂ : NodeMap Edge} (h : mapEquiv P₁ P₂) (s : ℕ) :
    ∀ (f : ℕ) (c : ℕ) (acc : Path),
      reconstruct P₁ s f c acc = reconstruct P₂ s f c acc := by
  intro f
  induction f with
  | zero => intro c acc; rfl
  | succ f ih =>
    intro c acc
    simp only [reconstruct]
    rw [h c]
    cases P₂.get c with
    | none => rfl
    | some pe =>
      by_cases hpe : pe.node = s
      · simp [hpe]
      · simp [hpe, ih]

theorem relaxEdges_congr (h : ℕ → Cost) (cur : ℕ) :
    ∀ (edges : List Edge) (σ₁ σ₂ : SearchState), stEquiv σ₁ σ₂ →
      optEquiv (relaxEdges h cur edges σ₁) (relaxEdges h cur edges σ₂) := by
  intro edges
  induction edges with
  | nil =>
    intro σ₁ σ₂ hst
    exact hst
  | cons e es ih =>
    intro σ₁ σ₂ hst
    obtain ⟨hnc, hps, hq⟩ := hst
    simp only [relaxEdges]
    rw [hnc cur]
    cases hc : σ₂.node_cost.get cur with
    | none => exact trivial
    | some curCost =>
      dsimp only
      rw [hnc e.node, hq]
      cases ho : σ₂.node_cost.get e.node with
      | none =>
        dsimp only
        by_cases hmem : σ₂.queue.any (fun q => q.node = e.node) = true
        · rw [if_pos hmem, if_pos hmem]
          exact ih _ _ ⟨mapEquiv_insert hnc _ _, mapEquiv_insert hps _ _, rfl⟩
        · rw [if_neg hmem, if_neg hmem]
          exact ih _ _ ⟨mapEquiv_insert hnc _ _, mapEquiv_insert hps _ _, rfl⟩
      | some old =>
        dsimp only
        by_cases himp : decide (curCost + e.cost < old) = true
        · rw [if_pos himp, if_pos himp]
          by_cases hmem : σ₂.queue.any (fun q => q.node = e.node) = true
          · rw [if_pos hmem, if_pos hmem]
            exact ih _ _ ⟨mapEquiv_insert hnc _ _, mapEquiv_insert hps _ _, rfl⟩
          · rw [if_neg hmem, if_neg hmem]
            exact ih _ _ ⟨mapEquiv_insert hnc _ _, mapEquiv_insert hps _ _, rfl⟩
        · rw [if_neg himp, if_neg himp]
          exact ih _ _ ⟨hnc, hps, hq⟩

theorem searchLoop_congr (E : ℕ → Option (List Edge)) (h : ℕ → Cost)
    (s endN : ℕ) : ∀ (f : ℕ) (σ₁ σ₂ : SearchState), stEquiv σ₁ σ₂ →
      searchLoop E h s endN f σ₁ = searchLoop E h s endN f σ₂ := by
  intro f
  induction f with
  | zero => intro σ₁ σ₂ hst; rfl
  | succ f ih =>
    intro σ₁ σ₂ hst
    obtain ⟨hnc, hps, hq⟩ := hst
    simp only [searchLoop]
    rw [hq]
    cases hp : qpop σ₂.queue with
    | none => rfl
    | some pr =>
      obtain ⟨e, rest⟩ := pr
      dsimp only
      by_cases he : e.node = endN
      · rw [if_pos he, if_pos he]
        rw [reconstruct_congr hps s (f + 1) endN []]
      · rw [if_neg he, if_neg he]
        cases hE : E e.node with
        | none => rfl
        | some edges =>
          dsimp only
          have hrel := relaxEdges_congr h e.node edges
            { σ₁ with queue := rest } { σ₂ with queue := rest }
            ⟨hnc, hps, rfl⟩
          cases h₁ : relaxEdges h e.node edges { σ₁ with queue := rest } with
          | none =>
            cases h₂ : relaxEdges h e.node edges { σ₂ with queue := rest } with
            | none => rfl
            | some σ₂p =>
              rw [h₁, h₂] at hrel
              exact absurd hrel (by simp [optEquiv])
          | some σ₁p =>
            cases h₂ : relaxEdges h e.node edges { σ₂ with queue := rest } with
            | none =>
              rw [h₁, h₂] at hrel
              exact absurd hrel (by simp [optEquiv])
            | some σ₂p =>
              rw [h₁, h₂] at hrel
              exact ih σ₁p σ₂p hrel

/-- C5: a search through an accelerator holding arbitrary left-over
transient state (cost map, parent map, priority queue) returns exactly the
same result as the same query on a freshly constructed accelerator for the
same graph, because `clear_transients` empties all three structures at the
start of every search. -/
theorem c5_accelerator_reuse (g : AdjacencyList) (nc : NodeMap Cost)
    (ps : NodeMap Edge) (q : List Edge) (s endN : ℕ) (h : ℕ → Cost) (f : ℕ) :
    a_star_acc ⟨lock_graph g, nc, ps, q⟩ s endN h f =
      a_star_acc (AStarAcceleration.new g) s endN h f := by
  unfold a_star_acc AStarAcceleration.new AStarAcceleration.clear_transients
  dsimp only
  by_cases hg : (lock_graph g).len = 0 ∨ s = endN
  · rw [if_pos hg, if_pos hg]
  · rw [if_neg hg, if_neg hg]
    apply searchLoop_congr
    refine ⟨?_, ?_, rfl⟩
    · apply mapEquiv_insert
      intro k
      rw [NodeMap.get_clear, NodeMap.get_clear]
    · intro k
      rw [NodeMap.get_clear, NodeMap.get_clear]



/-! ### Claim C4: structure of every returned path -/

theorem relaxEdges_parentsWF (E : ℕ → Option (List Edge)) (h : ℕ → Cost)
    (cur : ℕ) (L : List Edge) (hE : E cur = some L) :
    ∀ (edges : List Edge) (σ σ2 : SearchState), (∀ e ∈ edges, e ∈ L) →
      ParentsWF E σ.parents → relaxEdges h cur edges σ = some σ2 →
      ParentsWF E σ2.parents := by
  intro edges
  induction edges with
  | nil =>
    intro σ σ2 _ hwf hrel
    simp only [relaxEdges, Option.some.injEq] at hrel
    rw [← hrel]
    exact hwf
  | cons e es ih =>
    intro σ σ2 hsub hwf hrel
    simp only [relaxEdges] at hrel
    rcases hcc : σ.node_cost.get cur with _ | cc
    · rw [hcc] at hrel
      cases hrel
    · rw [hcc] at hrel
      dsimp only at hrel
      have hwf2 : ParentsWF E (σ.parents.insert e.node ⟨cur, e.cost⟩) := by
        intro n pe hget
        rw [NodeMap.get_insert] at hget
        by_cases hn : n = e.node
        · rw [if_pos hn] at hget
          injection hget with hpe
          rw [← hpe]
          refine ⟨L, hE, ?_⟩
          have h9 : (⟨n, e.cost⟩ : Edge) = e := by
            cases e
            simp_all
          show (⟨n, e.cost⟩ : Edge) ∈ L
          rw [h9]
          exact hsub e (List.mem_cons_self e es)
        · rw [if_neg hn] at hget
          exact hwf n pe hget
      by_cases himp : (match σ.node_cost.get e.node with
          | none => true
          | some old => decide (cc + e.cost < old)) = true
      · rw [if_pos himp] at hrel
        by_cases hmem : (σ.queue.any fun q => q.node = e.node) = true
        · rw [if_pos hmem] at hrel
          exact ih _ _ (fun x hx => hsub x (List.mem_cons_of_mem e hx)) hwf2 hrel
        · rw [if_neg hmem] at hrel
          exact ih _ _ (fun x hx => hsub x (List.mem_cons_of_mem e hx)) hwf2 hrel
      · rw [if_neg himp] at hrel
        exact ih _ _ (fun x hx => hsub x (List.mem_cons_of_mem e hx)) hwf hrel

theorem reconstruct_spec (P : NodeMap Edge) (s c₀ : ℕ) :
    ∀ (f c : ℕ) (acc p : Path),
      reconstruct P s f c acc = some (some p) →
      SegOk P c acc.reverse →
      (acc = [] ∧ c = c₀ ∨ (acc.head?.map Edge.node) = some c₀) →
      ∃ tail, p = ⟨s, 0⟩ :: tail ∧ SegOk P s tail ∧ tail ≠ [] ∧
        (p.getLast?.map Edge.node) = some c₀ := by
  intro f
  induction f with
  | zero =>
    intro c acc p hrec
    cases hrec
  | succ f ih =>
    intro c acc p hrec hseg hhead
    simp only [reconstruct] at hrec
    rcases hpe : P.get c with _ | pe
    · rw [hpe] at hrec
      injection hrec with h1
      cases h1
    · rw [hpe] at hrec
      dsimp only at hrec
      have hsegNew : SegOk P pe.node ((acc ++ [(⟨c, pe.cost⟩ : Edge)]).reverse) := by
        rw [List.reverse_append]
        show P.get c = some ⟨pe.node, pe.cost⟩ ∧ SegOk P c acc.reverse
        constructor
        · rw [hpe]
        · exact hseg
      have hheadNew : (acc ++ [(⟨c, pe.cost⟩ : Edge)]).head?.map Edge.node = some c₀ := by
        rcases hhead with ⟨hnil, hc⟩ | hh
        · subst hnil
          subst hc
          rfl
        · cases acc with
          | nil => simp at hh
          | cons a t =>
            simp only [List.cons_append, List.head?_cons]
            simpa using hh
      by_cases hstop : pe.node = s
      · rw [if_pos hstop] at hrec
        injection hrec with h1
        injection h1 with h2
        refine ⟨(acc ++ [(⟨c, pe.cost⟩ : Edge)]).reverse, ?_, ?_, ?_, ?_⟩
        · rw [← h2]
          rw [List.reverse_append]
          simp
        · rw [← hstop]
          exact hsegNew
        · simp
        · rw [← h2]
          rw [List.getLast?_reverse]
          cases hacc : acc ++ [(⟨c, pe.cost⟩ : Edge)] with
          | nil => simp at hacc
          | cons a t =>
            rw [hacc] at hheadNew
            simpa using hheadNew
      · rw [if_neg hstop] at hrec
        exact ih pe.node (acc ++ [(⟨c, pe.cost⟩ : Edge)]) p hrec hsegNew (Or.inr hheadNew)

theorem segOk_pathLinks (g : AdjacencyList) (P : NodeMap Edge)
    (hP : ParentsWF (edgesOf g) P) :
    ∀ (t : Path) (m : ℕ), SegOk P m t → pathLinks g m t = true := by
  intro t
  induction t with
  | nil => intro m _; rfl
  | cons e t2 ih =>
    intro m hseg
    obtain ⟨hget, hseg2⟩ := hseg
    obtain ⟨l, hl, hmem⟩ := hP e.node ⟨m, e.cost⟩ hget
    unfold pathLinks
    rw [Bool.and_eq_true]
    constructor
    · have hgd : g.nodes.getD m [] = l := by
        unfold edgesOf at hl
        rw [List.getD_eq_getElem?_getD, ← List.get?_eq_getElem?, hl]
        rfl
      rw [hgd]
      have h9 : (⟨e.node, e.cost⟩ : Edge) = e := by
        cases e
        rfl
      rw [h9] at hmem
      exact List.elem_eq_true_of_mem hmem
    · exact ih e.node hseg2

theorem searchLoop_path (E : ℕ → Option (List Edge)) (h : ℕ → Cost)
    (s endN : ℕ) :
    ∀ (f : ℕ) (σ : SearchState) (p : Path), ParentsWF E σ.parents →
      searchLoop E h s endN f σ = .ok (some p) →
      ∃ P, ParentsWF E P ∧ ∃ tail, p = ⟨s, 0⟩ :: tail ∧ SegOk P s tail ∧
        tail ≠ [] ∧ (p.getLast?.map Edge.node) = some endN := by
  intro f
  induction f with
  | zero =>
    intro σ p _ hrun
    cases hrun
  | succ f ih =>
    intro σ p hwf hrun
    simp only [searchLoop] at hrun
    rcases hq : qpop σ.queue with _ | pr
    · rw [hq] at hrun
      injection hrun with h1
      cases h1
    · rw [hq] at hrun
      obtain ⟨e, rest⟩ := pr
      dsimp only at hrun
      by_cases hend : e.node = endN
      · rw [if_pos hend] at hrun
        rcases hrec : reconstruct σ.parents s (f + 1) endN [] with _ | r
        · rw [hrec] at hrun
          cases hrun
        · rw [hrec] at hrun
          injection hrun with h1
          subst h1
          obtain ⟨tail, hp, hseg, hne, hlast⟩ :=
            reconstruct_spec σ.parents s endN (f + 1) endN [] p hrec trivial
              (Or.inl ⟨rfl, rfl⟩)
          exact ⟨σ.parents, hwf, tail, hp, hseg, hne, hlast⟩
      · rw [if_neg hend] at hrun
        rcases hE : E e.node with _ | edges
        · rw [hE] at hrun
          cases hrun
        · rw [hE] at hrun
          dsimp only at hrun
          split at hrun
          · cases hrun
          · rename_i σ2 hrel
            have hwf2 := relaxEdges_parentsWF E h e.node edges hE edges
              { σ with queue := rest } σ2 (fun x hx => hx) hwf hrel
            exact ih σ2 p hwf2 hrun

/-- C4: every path returned by `a_star` is a non-empty forward sequence of
`(node, incremental weight)` pairs whose first pair is exactly `(start, 0)`,
whose consecutive pairs are joined by actual directed edges of the graph
carrying exactly the recorded weight, and whose last node is `end`. -/
theorem c4_path_wellformed (g : AdjacencyList) (s endN : ℕ) (h : ℕ → Cost)
    (f : ℕ) (p : Path) (hrun : a_star g s endN h f = .ok (some p)) :
    pathWF g s endN p = true := by
  unfold a_star at hrun
  by_cases hguard : g.nodes.isEmpty = true ∨ s = endN
  · rw [if_pos hguard] at hrun
    injection hrun with h1
    cases h1
  · rw [if_neg hguard] at hrun
    have hpw : ParentsWF (edgesOf g) (initState s).parents := by
      intro n pe hget
      rw [show (initState s).parents = NodeMap.new Edge from rfl] at hget
      rw [NodeMap.get_new] at hget
      cases hget
    obtain ⟨P, hP, tail, hp, hseg, hne, hlast⟩ :=
      searchLoop_path (edgesOf g) h s endN f (initState s) p hpw hrun
    subst hp
    have hlinks := segOk_pathLinks g P hP tail s hseg
    simp [pathWF, hlinks, hlast]

/-- Witness for C4: the concrete run of the spec's trivial example,
`search(0, 2)` on the three-node graph, returns `[(0,0),(2,1)]`, which is
well-formed. -/
theorem c4_witness : pathWF gTriv 0 2 [⟨0, 0⟩, ⟨2, 1⟩] = true :=
  c4_path_wellformed gTriv 0 2 (fun _ => 0) 5 [⟨0, 0⟩, ⟨2, 1⟩]
    (by with_unfolding_all decide)



/-! ### Claim C2: supporting order and parent-chain lemmas -/

theorem costLE_refl (a : Option ℚ) : costLE a a := by
  cases a
  · trivial
  · exact le_refl _

theorem costLE_trans {a b c : Option ℚ} (h1 : costLE a b) (h2 : costLE b c) :
    costLE a c := by
  cases a <;> cases b <;> cases c <;> simp_all [costLE]
  linarith

theorem costLE_isSome {a b : Option ℚ} (h1 : costLE a b) (h2 : b.isSome) :
    a.isSome := by
  cases a <;> cases b <;> simp_all [costLE]

/-- Along any parent chain the recorded costs only go down, so a node whose
cost exceeds the chain's starting bound cannot lie on the chain. -/
theorem reaches_avoid (P : NodeMap Edge) (cost : NodeMap Cost) (s a : ℕ)
    (bound : ℚ)
    (hPC : ∀ n pe, P.get n = some pe → 0 ≤ pe.cost ∧
      ∃ cn cp, cost.get n = some cn ∧ cost.get pe.node = some cp ∧
        cp + pe.cost ≤ cn)
    (hs : s ≠ a)
    (ha : ∀ ca, cost.get a = some ca → bound < ca) :
    ∀ x, Reaches P s x → ∀ cx, cost.get x = some cx → cx ≤ bound →
      ReachesAvoid P s a x := by
  intro x hx
  induction hx with
  | base =>
    intro cx _ _
    exact .base hs
  | step hpe hre ih =>
    rename_i n pe
    intro cx hcx hle
    obtain ⟨hw, cn, cp, hcn, hcp, hsum⟩ := hPC n pe hpe
    have hcneq : cn = cx := by
      rw [hcx] at hcn
      exact (Option.some.inj hcn).symm
    subst hcneq
    have hxa : n ≠ a := by
      intro hcon
      subst hcon
      exact absurd (ha cn hcx) (by linarith)
    exact .step hxa hpe (ih cp hcp (by linarith))

/-- A chain that avoids `a` survives re-pointing `a`'s parent entry. -/
theorem reachesAvoid_insert (P : NodeMap Edge) (s a : ℕ) (pe2 : Edge) :
    ∀ x, ReachesAvoid P s a x → Reaches (P.insert a pe2) s x := by
  intro x hx
  induction hx with
  | base _ => exact .base
  | step hna hpe _ ih =>
    refine .step ?_ ih
    rw [NodeMap.get_insert_ne P pe2 hna]
    exact hpe



/-- The heart of the invariant preservation: one improving relaxation of the
edge `x` out of the popped node `cur` keeps the mid-relaxation invariant,
leaves `cur`'s cost unchanged, only moves costs downward, and only grows the
queue. -/
theorem relaxUpdate (E : ℕ → Option (List Edge)) (hh : ℕ → Cost)
    (s endN cur : ℕ) (L : List Edge) (hEwf : EdgesWF E) (hE : E cur = some L)
    (σ : SearchState) (hM : MidInv E s endN cur σ)
    (ccur : ℚ) (hccur : σ.node_cost.get cur = some ccur)
    (x : Edge) (hxL : x ∈ L)
    (himp : σ.node_cost.get x.node = none ∨
      ∃ old, σ.node_cost.get x.node = some old ∧ ccur + x.cost < old)
    (q' : List Edge)
    (hq : (q' = σ.queue ∧ ∃ e ∈ σ.queue, e.node = x.node) ∨
      (q' = ⟨x.node, ccur + x.cost + hh x.node⟩ :: σ.queue ∧
        ∀ e ∈ σ.queue, e.node ≠ x.node)) :
    MidInv E s endN cur
      ⟨σ.node_cost.insert x.node (ccur + x.cost),
       σ.parents.insert x.node ⟨cur, x.cost⟩, q'⟩ ∧
    (σ.node_cost.insert x.node (ccur + x.cost)).get cur = some ccur ∧
    (∀ k, costLE ((σ.node_cost.insert x.node (ccur + x.cost)).get k)
      (σ.node_cost.get k)) ∧
    (∀ e ∈ σ.queue, e ∈ q') := by
  obtain ⟨hxvalid, hxnn⟩ := hEwf cur L hE x hxL
  have hccnn : 0 ≤ ccur := hM.costNonneg cur ccur hccur
  have hcnn : 0 ≤ ccur + x.cost := by linarith
  have hsx : s ≠ x.node := by
    intro hcon
    rcases himp with hnone | ⟨old, hold, hlt⟩
    · rw [← hcon, hM.startZero] at hnone
      cases hnone
    · rw [← hcon, hM.startZero] at hold
      have h1 : old = 0 := (Option.some.inj hold).symm
      rw [h1] at hlt
      linarith
  have hcx : cur ≠ x.node := by
    intro hcon
    rcases himp with hnone | ⟨old, hold, hlt⟩
    · rw [← hcon, hccur] at hnone
      cases hnone
    · rw [← hcon, hccur] at hold
      have h1 : old = ccur := (Option.some.inj hold).symm
      rw [h1] at hlt
      linarith
  have hget : ∀ k, (σ.node_cost.insert x.node (ccur + x.cost)).get k =
      if k = x.node then some (ccur + x.cost) else σ.node_cost.get k :=
    fun k => NodeMap.get_insert σ.node_cost x.node k (ccur + x.cost)
  have hgetP : ∀ k, (σ.parents.insert x.node ⟨cur, x.cost⟩).get k =
      if k = x.node then some ⟨cur, x.cost⟩ else σ.parents.get k :=
    fun k => NodeMap.get_insert σ.parents x.node k ⟨cur, x.cost⟩
  have hcurKeep : (σ.node_cost.insert x.node (ccur + x.cost)).get cur =
      some ccur := by
    rw [hget, if_neg hcx]
    exact hccur
  have hanti : ∀ k, costLE ((σ.node_cost.insert x.node (ccur + x.cost)).get k)
      (σ.node_cost.get k) := by
    intro k
    rw [hget]
    by_cases hk : k = x.node
    · rw [if_pos hk, hk]
      rcases himp with hnone | ⟨old, hold, hlt⟩
      · rw [hnone]
        trivial
      · rw [hold]
        exact le_of_lt hlt
    · rw [if_neg hk]
      exact costLE_refl _
  have hsome : ∀ k, (σ.node_cost.get k).isSome →
      ((σ.node_cost.insert x.node (ccur + x.cost)).get k).isSome := by
    intro k hk
    rw [hget]
    by_cases h1 : k = x.node
    · rw [if_pos h1]
      rfl
    · rw [if_neg h1]
      exact hk
  have hqsup : ∀ e ∈ σ.queue, e ∈ q' := by
    rcases hq with ⟨hq1, _⟩ | ⟨hq1, _⟩
    · rw [hq1]
      exact fun e he => he
    · rw [hq1]
      exact fun e he => List.mem_cons_of_mem _ he
  -- parent-chain preservation
  have hcurReach : Reaches σ.parents s cur :=
    hM.reachesAll cur (by rw [hccur]; rfl)
  have hgap : ∀ ca, σ.node_cost.get x.node = some ca → ccur < ca := by
    intro ca hca
    rcases himp with hnone | ⟨old, hold, hlt⟩
    · rw [hnone] at hca
      cases hca
    · rw [hold] at hca
      have h1 : old = ca := Option.some.inj hca
      rw [← h1]
      linarith
  have havoid : ReachesAvoid σ.parents s x.node cur :=
    reaches_avoid σ.parents σ.node_cost s x.node ccur
      (fun n pe hpe => hM.parentCost n pe hpe) hsx hgap cur hcurReach ccur hccur
      (le_refl _)
  have hcurReach2 : Reaches (σ.parents.insert x.node ⟨cur, x.cost⟩) s cur :=
    reachesAvoid_insert σ.parents s x.node ⟨cur, x.cost⟩ cur havoid
  have hchildReach : Reaches (σ.parents.insert x.node ⟨cur, x.cost⟩) s x.node := by
    have h9 : Reaches (σ.parents.insert x.node ⟨cur, x.cost⟩) s
        (Edge.node ⟨cur, x.cost⟩) := hcurReach2
    exact .step (by rw [hgetP, if_pos rfl]) h9
  have hallReach : ∀ m, Reaches σ.parents s m →
      Reaches (σ.parents.insert x.node ⟨cur, x.cost⟩) s m := by
    intro m hm
    induction hm with
    | base => exact .base
    | step hpe hre ih =>
      rename_i n pe
      by_cases hn : n = x.node
      · subst hn
        have h9 : Reaches (σ.parents.insert x.node ⟨cur, x.cost⟩) s
            (Edge.node ⟨cur, x.cost⟩) := hcurReach2
        exact .step (by rw [hgetP, if_pos rfl]) h9
      · exact .step (by rw [hgetP, if_neg hn]; exact hpe) ih
  refine ⟨⟨?_, ?_, ?_, ?_, ?_, ?_, ?_, ?_, ?_, ?_, ?_, ?_, ?_⟩, hcurKeep, hanti, hqsup⟩
  · -- qCosted
    intro e he
    dsimp only at he ⊢
    rcases hq with ⟨hq1, _⟩ | ⟨hq1, _⟩
    · rw [hq1] at he
      exact hsome e.node (hM.qCosted e he)
    · rw [hq1] at he
      rcases List.mem_cons.mp he with rfl | he2
      · dsimp only
        rw [hget, if_pos rfl]
        rfl
      · exact hsome e.node (hM.qCosted e he2)
  · -- qNodup
    dsimp only
    rcases hq with ⟨hq1, _⟩ | ⟨hq1, hfresh⟩
    · rw [hq1]
      exact hM.qNodup
    · rw [hq1]
      refine List.Nodup.cons ?_ hM.qNodup
      intro hmem
      rw [List.mem_map] at hmem
      obtain ⟨e2, he2, hnode⟩ := hmem
      exact hfresh e2 he2 hnode
  · -- costedValid
    intro n hn
    dsimp only at hn
    rw [hget] at hn
    by_cases h1 : n = x.node
    · rw [h1]
      exact hxvalid
    · rw [if_neg h1] at hn
      exact hM.costedValid n hn
  · -- startZero
    dsimp only
    rw [hget, if_neg hsx]
    exact hM.startZero
  · -- costNonneg
    intro n c hn
    dsimp only at hn
    rw [hget] at hn
    by_cases h1 : n = x.node
    · rw [if_pos h1] at hn
      have h2 : ccur + x.cost = c := Option.some.inj hn
      rw [← h2]
      exact hcnn
    · rw [if_neg h1] at hn
      exact hM.costNonneg n c hn
  · -- parentEdge
    intro n pe hpe
    dsimp only at hpe
    rw [hgetP] at hpe
    by_cases h1 : n = x.node
    · rw [if_pos h1] at hpe
      have h2 : (⟨cur, x.cost⟩ : Edge) = pe := Option.some.inj hpe
      rw [← h2]
      refine ⟨L, hE, ?_⟩
      show (⟨n, x.cost⟩ : Edge) ∈ L
      rw [h1]
      have h3 : (⟨x.node, x.cost⟩ : Edge) = x := by
        cases x
        rfl
      rw [h3]
      exact hxL
    · rw [if_neg h1] at hpe
      exact hM.parentEdge n pe hpe
  · -- parentCost
    intro n pe hpe
    dsimp only at hpe ⊢
    rw [hgetP] at hpe
    by_cases h1 : n = x.node
    · rw [if_pos h1] at hpe
      have h2 : (⟨cur, x.cost⟩ : Edge) = pe := Option.some.inj hpe
      refine ⟨by rw [← h2]; exact hxnn, ccur + x.cost, ccur, ?_, ?_, ?_⟩
      · rw [hget, if_pos h1]
      · rw [← h2]
        exact hcurKeep
      · rw [← h2]
    · rw [if_neg h1] at hpe
      obtain ⟨hw, cn, cp, hcn, hcp, hsum⟩ := hM.parentCost n pe hpe
      refine ⟨hw, cn, ?_⟩
      by_cases h2 : pe.node = x.node
      · refine ⟨ccur + x.cost, ?_, ?_, ?_⟩
        · rw [hget, if_neg h1]
          exact hcn
        · rw [hget, if_pos h2]
        · rcases himp with hnone | ⟨old, hold, hlt⟩
          · rw [← h2, hcp] at hnone
            cases hnone
          · rw [← h2, hcp] at hold
            have h3 : cp = old := Option.some.inj hold
            rw [h3] at hsum
            linarith
      · refine ⟨cp, ?_, ?_, hsum⟩
        · rw [hget, if_neg h1]
          exact hcn
        · rw [hget, if_neg h2]
          exact hcp
  · -- startNoParent
    dsimp only
    rw [hgetP, if_neg hsx]
    exact hM.startNoParent
  · -- reachesAll
    intro n hn
    dsimp only at hn ⊢
    rw [hget] at hn
    by_cases h1 : n = x.node
    · rw [h1]
      exact hchildReach
    · rw [if_neg h1] at hn
      exact hallReach n (hM.reachesAll n hn)
  · -- relaxedOrQueuedX
    intro n cn hn hncur
    dsimp only at hn ⊢
    rw [hget] at hn
    by_cases h1 : n = x.node
    · rcases hq with ⟨hq1, e0, he0, he0n⟩ | ⟨hq1, _⟩
      · exact Or.inl ⟨e0, by rw [hq1]; exact he0, by rw [he0n, h1]⟩
      · exact Or.inl ⟨⟨x.node, ccur + x.cost + hh x.node⟩,
          by rw [hq1]; exact List.mem_cons_self _ _, by rw [h1]⟩
    · rw [if_neg h1] at hn
      rcases hM.relaxedOrQueuedX n cn hn hncur with ⟨e2, he2, he2n⟩ | hrel
      · exact Or.inl ⟨e2, hqsup e2 he2, he2n⟩
      · refine Or.inr ?_
        intro l hl y hy
        obtain ⟨cc, hcc, hle⟩ := hrel l hl y hy
        rw [hget]
        by_cases h2 : y.node = x.node
        · refine ⟨ccur + x.cost, by rw [if_pos h2], ?_⟩
          rcases himp with hnone | ⟨old, hold, hlt⟩
          · rw [← h2, hcc] at hnone
            cases hnone
          · rw [← h2, hcc] at hold
            have h3 : cc = old := Option.some.inj hold
            rw [h3] at hle
            linarith
        · exact ⟨cc, by rw [if_neg h2]; exact hcc, hle⟩
  · -- gReach
    intro n hn
    dsimp only at hn
    rw [hget] at hn
    by_cases h1 : n = x.node
    · rw [h1]
      have h2 : GReach E s cur :=
        hM.gReach cur (by rw [hccur]; rfl)
      exact GReach.tail h2 hE hxL
    · rw [if_neg h1] at hn
      exact hM.gReach n hn
  · -- endQueued
    intro hn
    dsimp only at hn ⊢
    rw [hget] at hn
    by_cases h1 : endN = x.node
    · rcases hq with ⟨hq1, e0, he0, he0n⟩ | ⟨hq1, _⟩
      · exact ⟨e0, by rw [hq1]; exact he0, by rw [he0n, h1]⟩
      · exact ⟨⟨x.node, ccur + x.cost + hh x.node⟩,
          by rw [hq1]; exact List.mem_cons_self _ _, by rw [h1]⟩
    · rw [if_neg h1] at hn
      obtain ⟨e2, he2, he2n⟩ := hM.endQueued hn
      exact ⟨e2, hqsup e2 he2, he2n⟩
  · -- inV
    intro n c hn
    dsimp only at hn
    rw [hget] at hn
    by_cases h1 : n = x.node
    · rw [if_pos h1] at hn
      have h2 : ccur + x.cost = c := Option.some.inj hn
      rw [← h2]
      have h3 : ccur ∈ VSet E := hM.inV cur ccur hccur
      have h4 : x.cost ∈ VSet E :=
        AddSubmonoid.subset_closure ⟨cur, L, x, hE, hxL, rfl⟩
      exact AddSubmonoid.add_mem _ h3 h4
    · rw [if_neg h1] at hn
      exact hM.inV n c hn



theorem costLE_some {a : Option ℚ} {v : ℚ} (h : costLE a (some v)) :
    ∃ c, a = some c ∧ c ≤ v := by
  cases a with
  | none => exact absurd h (by simp [costLE])
  | some c => exact ⟨c, rfl, h⟩

/-- Running the relaxation over any suffix of the popped node's edge list
from a mid-invariant state succeeds and yields a mid-invariant state in
which every processed edge's target carries a cost bounded by the
relaxation bound; costs never rise, the queue never shrinks, and either the
state is unchanged or some cost strictly improved. -/
theorem relaxEdges_run (E : ℕ → Option (List Edge)) (hh : ℕ → Cost)
    (s endN cur : ℕ) (L : List Edge) (hEwf : EdgesWF E) (hE : E cur = some L) :
    ∀ (edges : List Edge) (σ : SearchState), (∀ x ∈ edges, x ∈ L) →
      MidInv E s endN cur σ →
      ∀ ccur, σ.node_cost.get cur = some ccur →
      ∃ σ2, relaxEdges hh cur edges σ = some σ2 ∧
        MidInv E s endN cur σ2 ∧
        σ2.node_cost.get cur = some ccur ∧
        (∀ k, costLE (σ2.node_cost.get k) (σ.node_cost.get k)) ∧
        (∀ e ∈ σ.queue, e ∈ σ2.queue) ∧
        (∀ x ∈ edges, ∃ c, σ2.node_cost.get x.node = some c ∧
          c ≤ ccur + x.cost) ∧
        (σ2 = σ ∨ ∃ k, σ2.node_cost.get k ≠ σ.node_cost.get k) := by
  intro edges
  induction edges with
  | nil =>
    intro σ _ hM ccur hccur
    exact ⟨σ, rfl, hM, hccur, fun k => costLE_refl _, fun e he => he,
      fun x hx => absurd hx (List.not_mem_nil x), Or.inl rfl⟩
  | cons x es ih =>
    intro σ hsub hM ccur hccur
    have hxL : x ∈ L := hsub x (List.mem_cons_self x es)
    have hsub2 : ∀ y ∈ es, y ∈ L := fun y hy => hsub y (List.mem_cons_of_mem x hy)
    simp only [relaxEdges]
    rw [hccur]
    dsimp only
    by_cases himpB : (match σ.node_cost.get x.node with
        | none => true
        | some old => decide (ccur + x.cost < old)) = true
    · rw [if_pos himpB]
      have himp : σ.node_cost.get x.node = none ∨
          ∃ old, σ.node_cost.get x.node = some old ∧ ccur + x.cost < old := by
        rcases hxn : σ.node_cost.get x.node with _ | old
        · exact Or.inl rfl
        · rw [hxn] at himpB
          exact Or.inr ⟨old, rfl, of_decide_eq_true himpB⟩
      by_cases hmem : (σ.queue.any fun q => q.node = x.node) = true
      · rw [if_pos hmem]
        rw [List.any_eq_true] at hmem
        obtain ⟨e0, he0, he0n⟩ := hmem
        obtain ⟨hM', hccur', hanti', hqsup'⟩ := relaxUpdate E hh s endN cur L
          hEwf hE σ hM ccur hccur x hxL himp σ.queue
          (Or.inl ⟨rfl, e0, he0, of_decide_eq_true he0n⟩)
        obtain ⟨σ2, hrel2, hM2, hccur2, hanti2, hqsup2, hdone2, hflag2⟩ :=
          ih _ hsub2 hM' ccur hccur'
        refine ⟨σ2, hrel2, hM2, hccur2, ?_, ?_, ?_, ?_⟩
        · intro k
          exact costLE_trans (hanti2 k) (hanti' k)
        · intro e he
          exact hqsup2 e (hqsup' e he)
        · intro y hy
          rcases List.mem_cons.mp hy with rfl | hy2
          · have h1 : costLE (σ2.node_cost.get y.node) (some (ccur + y.cost)) := by
              have h2 := hanti2 y.node
              rw [show (σ.node_cost.insert y.node (ccur + y.cost)).get y.node =
                some (ccur + y.cost) from NodeMap.get_insert_self _ _ _] at h2
              exact h2
            obtain ⟨c2, hc2, hle2⟩ := costLE_some h1
            exact ⟨c2, hc2, hle2⟩
          · exact hdone2 y hy2
        · refine Or.inr ⟨x.node, ?_⟩
          have h1 : costLE (σ2.node_cost.get x.node) (some (ccur + x.cost)) := by
            have h2 := hanti2 x.node
            rw [show (σ.node_cost.insert x.node (ccur + x.cost)).get x.node =
              some (ccur + x.cost) from NodeMap.get_insert_self _ _ _] at h2
            exact h2
          obtain ⟨c2, hc2, hle2⟩ := costLE_some h1
          rw [hc2]
          rcases himp with hnone | ⟨old, hold, hlt⟩
          · rw [hnone]
            simp
          · rw [hold]
            intro hcon
            have h3 : c2 = old := Option.some.inj hcon
            linarith
      · rw [if_neg hmem]
        have hfresh : ∀ e ∈ σ.queue, e.node ≠ x.node := by
          intro e he hcon
          exact hmem (List.any_eq_true.mpr ⟨e, he, decide_eq_true hcon⟩)
        obtain ⟨hM', hccur', hanti', hqsup'⟩ := relaxUpdate E hh s endN cur L
          hEwf hE σ hM ccur hccur x hxL himp
          (⟨x.node, ccur + x.cost + hh x.node⟩ :: σ.queue)
          (Or.inr ⟨rfl, hfresh⟩)
        obtain ⟨σ2, hrel2, hM2, hccur2, hanti2, hqsup2, hdone2, hflag2⟩ :=
          ih _ hsub2 hM' ccur hccur'
        refine ⟨σ2, hrel2, hM2, hccur2, ?_, ?_, ?_, ?_⟩
        · intro k
          exact costLE_trans (hanti2 k) (hanti' k)
        · intro e he
          exact hqsup2 e (hqsup' e he)
        · intro y hy
          rcases List.mem_cons.mp hy with rfl | hy2
          · have h1 : costLE (σ2.node_cost.get y.node) (some (ccur + y.cost)) := by
              have h2 := hanti2 y.node
              rw [show (σ.node_cost.insert y.node (ccur + y.cost)).get y.node =
                some (ccur + y.cost) from NodeMap.get_insert_self _ _ _] at h2
              exact h2
            obtain ⟨c2, hc2, hle2⟩ := costLE_some h1
            exact ⟨c2, hc2, hle2⟩
          · exact hdone2 y hy2
        · refine Or.inr ⟨x.node, ?_⟩
          have h1 : costLE (σ2.node_cost.get x.node) (some (ccur + x.cost)) := by
            have h2 := hanti2 x.node
            rw [show (σ.node_cost.insert x.node (ccur + x.cost)).get x.node =
              some (ccur + x.cost) from NodeMap.get_insert_self _ _ _] at h2
            exact h2
          obtain ⟨c2, hc2, hle2⟩ := costLE_some h1
          rw [hc2]
          rcases himp with hnone | ⟨old, hold, hlt⟩
          · rw [hnone]
            simp
          · rw [hold]
            intro hcon
            have h3 : c2 = old := Option.some.inj hcon
            linarith
    · rw [if_neg himpB]
      have hbound : ∃ old, σ.node_cost.get x.node = some old ∧
          old ≤ ccur + x.cost := by
        rcases hxn : σ.node_cost.get x.node with _ | old
        · rw [hxn] at himpB
          exact absurd rfl himpB
        · rw [hxn] at himpB
          refine ⟨old, rfl, ?_⟩
          by_contra hcon
          push_neg at hcon
          exact himpB (decide_eq_true hcon)
      obtain ⟨σ2, hrel2, hM2, hccur2, hanti2, hqsup2, hdone2, hflag2⟩ :=
        ih σ hsub2 hM ccur hccur
      refine ⟨σ2, hrel2, hM2, hccur2, hanti2, hqsup2, ?_, hflag2⟩
      intro y hy
      rcases List.mem_cons.mp hy with rfl | hy2
      · obtain ⟨old, hold, hle⟩ := hbound
        have h1 : costLE (σ2.node_cost.get y.node) (some old) := by
          have h2 := hanti2 y.node
          rw [hold] at h2
          exact h2
        obtain ⟨c2, hc2, hle2⟩ := costLE_some h1
        exact ⟨c2, hc2, by linarith⟩
      · exact hdone2 y hy2



theorem pop_midInv (E : ℕ → Option (List Edge)) (s endN : ℕ) (σ : SearchState)
    (hI : Inv E s endN σ) (e : Edge) (rest : List Edge)
    (hpop : qpop σ.queue = some (e, rest)) (hne : e.node ≠ endN) :
    MidInv E s endN e.node { σ with queue := rest } ∧
    (∃ ccur, σ.node_cost.get e.node = some ccur) ∧
    rest.length < σ.queue.length := by
  obtain ⟨hmem, hrest, _⟩ := qpop_some σ.queue e rest hpop
  have hrsub : ∀ y ∈ rest, y ∈ σ.queue := by
    intro y hy
    rw [hrest] at hy
    exact (List.erase_sublist e σ.queue).subset hy
  have hsurvive : ∀ y ∈ σ.queue, y.node ≠ e.node → y ∈ rest := by
    intro y hy hynode
    rw [hrest]
    exact (List.mem_erase_of_ne fun hcon => hynode (by rw [hcon])).mpr hy
  refine ⟨⟨?_, ?_, hI.costedValid, hI.startZero, hI.costNonneg, hI.parentEdge,
      hI.parentCost, hI.startNoParent, hI.reachesAll, ?_, hI.gReach, ?_,
      hI.inV⟩, ?_, ?_⟩
  · intro y hy
    exact hI.qCosted y (hrsub y hy)
  · have h1 : (rest.map Edge.node).Sublist (σ.queue.map Edge.node) := by
      rw [hrest]
      exact (List.erase_sublist e σ.queue).map Edge.node
    exact hI.qNodup.sublist h1
  · intro n cn hn hncur
    rcases hI.relaxedOrQueued n cn hn with ⟨e2, he2, he2n⟩ | hrel
    · refine Or.inl ⟨e2, ?_, he2n⟩
      refine hsurvive e2 he2 ?_
      rw [he2n]
      exact hncur
    · exact Or.inr hrel
  · intro hn
    obtain ⟨e2, he2, he2n⟩ := hI.endQueued hn
    refine ⟨e2, ?_, he2n⟩
    refine hsurvive e2 he2 ?_
    rw [he2n]
    intro hcon
    exact hne hcon.symm
  · have h1 := hI.qCosted e hmem
    rcases h2 : σ.node_cost.get e.node with _ | c
    · rw [h2] at h1
      cases h1
    · exact ⟨c, rfl⟩
  · rw [hrest]
    rw [List.length_erase_of_mem hmem]
    have h3 : 0 < σ.queue.length := List.length_pos.mpr (by
      intro hcon
      rw [hcon] at hmem
      cases hmem)
    omega

theorem midInv_full (E : ℕ → Option (List Edge)) (s endN cur : ℕ)
    (L : List Edge) (hE : E cur = some L) (σ2 : SearchState)
    (hM : MidInv E s endN cur σ2) (ccur : ℚ)
    (hc : σ2.node_cost.get cur = some ccur)
    (hdone : ∀ x ∈ L, ∃ c, σ2.node_cost.get x.node = some c ∧
      c ≤ ccur + x.cost) :
    Inv E s endN σ2 := by
  refine ⟨hM.qCosted, hM.qNodup, hM.costedValid, hM.startZero, hM.costNonneg,
    hM.parentEdge, hM.parentCost, hM.startNoParent, hM.reachesAll, ?_,
    hM.gReach, hM.endQueued, hM.inV⟩
  intro n cn hn
  by_cases hncur : n = cur
  · refine Or.inr ?_
    intro l hl y hy
    subst hncur
    rw [hE] at hl
    have hlL : L = l := Option.some.inj hl
    subst hlL
    have hcn : ccur = cn := by
      rw [hn] at hc
      exact (Option.some.inj hc).symm
    obtain ⟨c, hcy, hley⟩ := hdone y hy
    exact ⟨c, hcy, by rw [← hcn]; exact hley⟩
  · exact hM.relaxedOrQueuedX n cn hn hncur

theorem inv_step (E : ℕ → Option (List Edge)) (hh : ℕ → Cost) (s endN : ℕ)
    (hEwf : EdgesWF E) (σ : SearchState) (hI : Inv E s endN σ)
    (e : Edge) (rest : List Edge) (hpop : qpop σ.queue = some (e, rest))
    (hne : e.node ≠ endN) (L : List Edge) (hE : E e.node = some L) :
    ∃ σ2, relaxEdges hh e.node L { σ with queue := rest } = some σ2 ∧
      Inv E s endN σ2 ∧
      (∀ k, costLE (σ2.node_cost.get k) (σ.node_cost.get k)) ∧
      ((∀ k, σ2.node_cost.get k = σ.node_cost.get k) →
        σ2.queue.length < σ.queue.length) := by
  obtain ⟨hM, ⟨ccur, hccur⟩, hlen⟩ := pop_midInv E s endN σ hI e rest hpop hne
  obtain ⟨σ2, hrel, hM2, hccur2, hanti, hqsup, hdone, hflag⟩ :=
    relaxEdges_run E hh s endN e.node L hEwf hE L { σ with queue := rest }
      (fun x hx => hx) hM ccur hccur
  refine ⟨σ2, hrel,
    midInv_full E s endN e.node L hE σ2 hM2 ccur hccur2 hdone, ?_, ?_⟩
  · intro k
    exact hanti k
  · intro hsame
    rcases hflag with hflag | ⟨k, hk⟩
    · rw [hflag]
      exact hlen
    · exact absurd (hsame k) hk



theorem reconstruct_ne_some_none (P : NodeMap Edge) (s : ℕ) :
    ∀ (f c : ℕ) (acc : Path), Reaches P s c → c ≠ s →
      reconstruct P s f c acc ≠ some none := by
  intro f
  induction f with
  | zero =>
    intro c acc _ _ h
    cases h
  | succ f ih =>
    intro c acc hre hcs
    cases hre with
    | base => exact absurd rfl hcs
    | step hpe hre2 =>
      rename_i pe
      simp only [reconstruct]
      rw [hpe]
      dsimp only
      by_cases hstop : pe.node = s
      · rw [if_pos hstop]
        simp
      · rw [if_neg hstop]
        exact ih pe.node _ hre2 hstop

theorem reconstruct_succeeds (P : NodeMap Edge) (s : ℕ) :
    ∀ (c : ℕ), Reaches P s c → c ≠ s →
      ∃ f, ∀ acc, ∃ p, reconstruct P s f c acc = some (some p) := by
  intro c hre
  induction hre with
  | base =>
    intro h
    exact absurd rfl h
  | step hpe hre2 ih =>
    rename_i n pe
    intro _
    by_cases hstop : pe.node = s
    · refine ⟨1, fun acc => ?_⟩
      simp only [reconstruct]
      rw [hpe]
      dsimp only
      rw [if_pos hstop]
      exact ⟨_, rfl⟩
    · obtain ⟨f, hf⟩ := ih hstop
      refine ⟨f + 1, fun acc => ?_⟩
      simp only [reconstruct]
      rw [hpe]
      dsimp only
      rw [if_neg hstop]
      exact hf _

theorem reconstruct_mono (P : NodeMap Edge) (s : ℕ) :
    ∀ (f c : ℕ) (acc : Path) (r : Option Path),
      reconstruct P s f c acc = some r →
      ∀ f2, f ≤ f2 → reconstruct P s f2 c acc = some r := by
  intro f
  induction f with
  | zero =>
    intro c acc r h
    cases h
  | succ f ih =>
    intro c acc r h f2 hle
    obtain ⟨f3, rfl⟩ : ∃ f3, f2 = f3 + 1 := ⟨f2 - 1, by omega⟩
    simp only [reconstruct] at h ⊢
    cases hpe : P.get c with
    | none =>
      rw [hpe] at h
      dsimp only at h ⊢
      exact h
    | some pe =>
      rw [hpe] at h
      dsimp only at h ⊢
      by_cases hstop : pe.node = s
      · rw [if_pos hstop] at h ⊢
        exact h
      · rw [if_neg hstop] at h ⊢
        exact ih _ _ _ h f3 (by omega)

theorem searchLoop_no_fatal (E : ℕ → Option (List Edge)) (hh : ℕ → Cost)
    (s endN : ℕ) (hEwf : EdgesWF E) :
    ∀ (f : ℕ) (σ : SearchState), Inv E s endN σ →
      searchLoop E hh s endN f σ ≠ .fatal := by
  intro f
  induction f with
  | zero =>
    intro σ _ h
    cases h
  | succ f ih =>
    intro σ hI h
    simp only [searchLoop] at h
    rcases hq : qpop σ.queue with _ | pr
    · rw [hq] at h
      cases h
    · rw [hq] at h
      obtain ⟨e, rest⟩ := pr
      dsimp only at h
      by_cases hend : e.node = endN
      · rw [if_pos hend] at h
        rcases hrec : reconstruct σ.parents s (f + 1) endN [] with _ | r
        · rw [hrec] at h
          cases h
        · rw [hrec] at h
          cases h
      · rw [if_neg hend] at h
        have hmem : e ∈ σ.queue := (qpop_some σ.queue e rest hq).1
        have hcosted := hI.qCosted e hmem
        have hvalid := hI.costedValid e.node hcosted
        rcases hE : E e.node with _ | L
        · rw [hE] at hvalid
          cases hvalid
        · rw [hE] at h
          dsimp only at h
          obtain ⟨σ2, hrel, hI2, _, _⟩ :=
            inv_step E hh s endN hEwf σ hI e rest hq hend L hE
          rw [hrel] at h
          exact ih σ2 hI2 h

theorem searchLoop_some_reach (E : ℕ → Option (List Edge)) (hh : ℕ → Cost)
    (s endN : ℕ) (hEwf : EdgesWF E) :
    ∀ (f : ℕ) (σ : SearchState) (p : Path), Inv E s endN σ →
      searchLoop E hh s endN f σ = .ok (some p) → GReach E s endN := by
  intro f
  induction f with
  | zero =>
    intro σ p _ h
    cases h
  | succ f ih =>
    intro σ p hI h
    simp only [searchLoop] at h
    rcases hq : qpop σ.queue with _ | pr
    · rw [hq] at h
      injection h with h1
      cases h1
    · rw [hq] at h
      obtain ⟨e, rest⟩ := pr
      dsimp only at h
      by_cases hend : e.node = endN
      · have hmem : e ∈ σ.queue := (qpop_some σ.queue e rest hq).1
        have hcosted := hI.qCosted e hmem
        rw [hend] at hcosted
        exact hI.gReach endN hcosted
      · rw [if_neg hend] at h
        have hmem : e ∈ σ.queue := (qpop_some σ.queue e rest hq).1
        have hcosted := hI.qCosted e hmem
        have hvalid := hI.costedValid e.node hcosted
        rcases hE : E e.node with _ | L
        · rw [hE] at hvalid
          cases hvalid
        · rw [hE] at h
          dsimp only at h
          obtain ⟨σ2, hrel, hI2, _, _⟩ :=
            inv_step E hh s endN hEwf σ hI e rest hq hend L hE
          rw [hrel] at h
          exact ih σ2 p hI2 h

theorem queue_empty_closed (E : ℕ → Option (List Edge)) (s endN : ℕ)
    (σ : SearchState) (hI : Inv E s endN σ) (hq : σ.queue = []) :
    ∀ n, GReach E s n → (σ.node_cost.get n).isSome := by
  intro n hn
  induction hn with
  | refl =>
    rw [hI.startZero]
    rfl
  | tail hu hEu hmem ih =>
    rename_i u l e2
    rcases hu3 : σ.node_cost.get u with _ | cu
    · rw [hu3] at ih
      cases ih
    · rcases hI.relaxedOrQueued u cu hu3 with ⟨e3, he3, _⟩ | hrel
      · rw [hq] at he3
        cases he3
      · obtain ⟨c, hc, _⟩ := hrel l hEu e2 hmem
        rw [hc]
        rfl

theorem searchLoop_none_unreach (E : ℕ → Option (List Edge)) (hh : ℕ → Cost)
    (s endN : ℕ) (hEwf : EdgesWF E) (hsne : s ≠ endN) :
    ∀ (f : ℕ) (σ : SearchState), Inv E s endN σ →
      searchLoop E hh s endN f σ = .ok none → ¬GReach E s endN := by
  intro f
  induction f with
  | zero =>
    intro σ _ h
    cases h
  | succ f ih =>
    intro σ hI h
    simp only [searchLoop] at h
    rcases hq : qpop σ.queue with _ | pr
    · rw [hq] at h
      have hqe : σ.queue = [] := (qpop_eq_none_iff σ.queue).mp hq
      intro hre
      have hcosted := queue_empty_closed E s endN σ hI hqe endN hre
      obtain ⟨e2, he2, _⟩ := hI.endQueued hcosted
      rw [hqe] at he2
      cases he2
    · rw [hq] at h
      obtain ⟨e, rest⟩ := pr
      dsimp only at h
      by_cases hend : e.node = endN
      · rw [if_pos hend] at h
        have hmem : e ∈ σ.queue := (qpop_some σ.queue e rest hq).1
        have hcosted := hI.qCosted e hmem
        rw [hend] at hcosted
        have hreach := hI.reachesAll endN hcosted
        have hne2 := reconstruct_ne_some_none σ.parents s (f + 1) endN []
          hreach (fun hcon => hsne hcon.symm)
        rcases hrec : reconstruct σ.parents s (f + 1) endN [] with _ | r
        · rw [hrec] at h
          cases h
        · rw [hrec] at h
          injection h with h1
          rw [h1] at hrec
          exact absurd hrec hne2
      · rw [if_neg hend] at h
        have hmem : e ∈ σ.queue := (qpop_some σ.queue e rest hq).1
        have hcosted := hI.qCosted e hmem
        have hvalid := hI.costedValid e.node hcosted
        rcases hE : E e.node with _ | L
        · rw [hE] at hvalid
          cases hvalid
        · rw [hE] at h
          dsimp only at h
          obtain ⟨σ2, hrel, hI2, _, _⟩ :=
            inv_step E hh s endN hEwf σ hI e rest hq hend L hE
          rw [hrel] at h
          exact ih σ2 hI2 h

theorem searchLoop_mono (E : ℕ → Option (List Edge)) (hh : ℕ → Cost)
    (s endN : ℕ) :
    ∀ (f : ℕ) (σ : SearchState) (r : RunResult),
      searchLoop E hh s endN f σ = r → r ≠ .outOfFuel →
      ∀ f2, f ≤ f2 → searchLoop E hh s endN f2 σ = r := by
  intro f
  induction f with
  | zero =>
    intro σ r h hne _ _
    rw [← h] at hne
    exact absurd rfl hne
  | succ f ih =>
    intro σ r h hne f2 hle
    obtain ⟨f3, rfl⟩ : ∃ f3, f2 = f3 + 1 := ⟨f2 - 1, by omega⟩
    simp only [searchLoop] at h ⊢
    rcases hq : qpop σ.queue with _ | pr
    · rw [hq] at h
      exact h
    · rw [hq] at h
      obtain ⟨e, rest⟩ := pr
      dsimp only at h ⊢
      by_cases hend : e.node = endN
      · rw [if_pos hend] at h ⊢
        rcases hrec : reconstruct σ.parents s (f + 1) endN [] with _ | r0
        · rw [hrec] at h
          rw [← h] at hne
          exact absurd rfl hne
        · rw [hrec] at h
          rw [reconstruct_mono σ.parents s (f + 1) endN [] r0 hrec (f3 + 1)
            (by omega)]
          exact h
      · rw [if_neg hend] at h ⊢
        rcases hE : E e.node with _ | edges
        · rw [hE] at h
          exact h
        · rw [hE] at h
          dsimp only at h ⊢
          rcases hrel : relaxEdges hh e.node edges { σ with queue := rest }
            with _ | σ2
          · rw [hrel] at h
            exact h
          · rw [hrel] at h
            exact ih σ2 r h hne f3 (by omega)


theorem init_inv (E : ℕ → Option (List Edge)) (s endN : ℕ)
    (hstart : (E s).isSome) : Inv E s endN (initState s) := by
  have hget : ∀ k, (initState s).node_cost.get k =
      if k = s then some 0 else none := by
    intro k
    show ((NodeMap.new Cost).insert s 0).get k = _
    rw [NodeMap.get_insert]
    by_cases h1 : k = s
    · rw [if_pos h1, if_pos h1]
    · rw [if_neg h1, if_neg h1, NodeMap.get_new]
  have hpar : ∀ k, (initState s).parents.get k = none := fun k =>
    NodeMap.get_new k
  refine ⟨?_, ?_, ?_, ?_, ?_, ?_, ?_, ?_, ?_, ?_, ?_, ?_, ?_⟩
  · intro e he
    rcases List.mem_singleton.mp he with rfl
    rw [hget]
    dsimp only
    rw [if_pos rfl]
    rfl
  · exact List.nodup_singleton s
  · intro n hn
    rw [hget] at hn
    by_cases h1 : n = s
    · rw [h1]
      exact hstart
    · rw [if_neg h1] at hn
      cases hn
  · rw [hget, if_pos rfl]
  · intro n cq hn
    rw [hget] at hn
    by_cases h1 : n = s
    · rw [if_pos h1] at hn
      have h2 : (0 : ℚ) = cq := Option.some.inj hn
      rw [← h2]
    · rw [if_neg h1] at hn
      cases hn
  · intro n pe hpe
    rw [hpar] at hpe
    cases hpe
  · intro n pe hpe
    rw [hpar] at hpe
    cases hpe
  · exact hpar s
  · intro n hn
    rw [hget] at hn
    by_cases h1 : n = s
    · rw [h1]
      exact .base
    · rw [if_neg h1] at hn
      cases hn
  · intro n cn hn
    rw [hget] at hn
    by_cases h1 : n = s
    · exact Or.inl ⟨⟨s, 0⟩, List.mem_singleton_self _, by rw [h1]⟩
    · rw [if_neg h1] at hn
      cases hn
  · intro n hn
    rw [hget] at hn
    by_cases h1 : n = s
    · rw [h1]
      exact .refl
    · rw [if_neg h1] at hn
      cases hn
  · intro hn
    rw [hget] at hn
    by_cases h1 : endN = s
    · exact ⟨⟨s, 0⟩, List.mem_singleton_self _, by rw [h1]⟩
    · rw [if_neg h1] at hn
      cases hn
  · intro n cq hn
    rw [hget] at hn
    by_cases h1 : n = s
    · rw [if_pos h1] at hn
      have h2 : (0 : ℚ) = cq := Option.some.inj hn
      rw [← h2]
      exact AddSubmonoid.zero_mem _
    · rw [if_neg h1] at hn
      cases hn

/-- The search loop always reaches a normal return (goal popped or queue
exhausted) on some fuel: an infinite run would strictly improve some node's
cost infinitely often, contradicting the well-foundedness of sums of finitely
many non-negative weights. -/
theorem searchLoop_terminates (E : ℕ → Option (List Edge)) (hh : ℕ → Cost)
    (s endN : ℕ) (hEwf : EdgesWF E)
    (hfin : {c : ℚ | weightMem E c}.Finite) (N : ℕ)
    (hVB : ∀ n, (E n).isSome → n < N) (hsne : s ≠ endN) :
    ∀ σ0, Inv E s endN σ0 → ∃ f r, searchLoop E hh s endN f σ0 = .ok r := by
  intro σ0 hI0
  by_contra hcon
  push_neg at hcon
  have hOOF0 : ∀ f, searchLoop E hh s endN f σ0 = .outOfFuel := by
    intro f
    rcases hres : searchLoop E hh s endN f σ0 with r | _ | _
    · exact absurd hres (hcon f r)
    · exact absurd hres (searchLoop_no_fatal E hh s endN hEwf f σ0 hI0)
    · rfl
  have hstep : ∀ σ, Inv E s endN σ →
      (∀ f, searchLoop E hh s endN f σ = .outOfFuel) →
      ∃ σ2, Inv E s endN σ2 ∧
        (∀ f, searchLoop E hh s endN f σ2 = .outOfFuel) ∧
        (∀ k, costLE (σ2.node_cost.get k) (σ.node_cost.get k)) ∧
        ((∀ k, σ2.node_cost.get k = σ.node_cost.get k) →
          σ2.queue.length < σ.queue.length) := by
    intro σ hI hoof
    rcases hq : qpop σ.queue with _ | pr
    · have h1 := hoof 1
      simp only [searchLoop] at h1
      rw [hq] at h1
      cases h1
    · obtain ⟨e, rest⟩ := pr
      by_cases hend : e.node = endN
      · exfalso
        have hmem : e ∈ σ.queue := (qpop_some σ.queue e rest hq).1
        have hcosted := hI.qCosted e hmem
        rw [hend] at hcosted
        have hreach := hI.reachesAll endN hcosted
        obtain ⟨fr, hfr⟩ := reconstruct_succeeds σ.parents s endN hreach
          (fun hcon2 => hsne hcon2.symm)
        obtain ⟨p, hp⟩ := hfr []
        have h2 := reconstruct_mono σ.parents s fr endN [] (some p) hp
          (fr + 1) (by omega)
        have h3 := hoof (fr + 1)
        simp only [searchLoop] at h3
        rw [hq] at h3
        dsimp only at h3
        rw [if_pos hend] at h3
        rw [h2] at h3
        cases h3
      · have hmem : e ∈ σ.queue := (qpop_some σ.queue e rest hq).1
        have hcosted := hI.qCosted e hmem
        have hvalid := hI.costedValid e.node hcosted
        rcases hE : E e.node with _ | L
        · rw [hE] at hvalid
          cases hvalid
        · obtain ⟨σ2, hrel, hI2, hanti, hqdec⟩ :=
            inv_step E hh s endN hEwf σ hI e rest hq hend L hE
          refine ⟨σ2, hI2, ?_, hanti, hqdec⟩
          intro f
          have h1 := hoof (f + 1)
          simp only [searchLoop] at h1
          rw [hq] at h1
          dsimp only at h1
          rw [if_neg hend] at h1
          rw [hE] at h1
          dsimp only at h1
          rw [hrel] at h1
          exact h1
  classical
  obtain ⟨F, hF⟩ :
      ∃ F : {σ : SearchState // Inv E s endN σ ∧
          ∀ f, searchLoop E hh s endN f σ = .outOfFuel} →
        {σ : SearchState // Inv E s endN σ ∧
          ∀ f, searchLoop E hh s endN f σ = .outOfFuel},
        ∀ p, (∀ k, costLE ((F p).1.node_cost.get k) (p.1.node_cost.get k)) ∧
          ((∀ k, (F p).1.node_cost.get k = p.1.node_cost.get k) →
            (F p).1.queue.length < p.1.queue.length) := by
    refine ⟨fun p => ⟨(hstep p.1 p.2.1 p.2.2).choose,
      (hstep p.1 p.2.1 p.2.2).choose_spec.1,
      (hstep p.1 p.2.1 p.2.2).choose_spec.2.1⟩, ?_⟩
    intro p
    exact ⟨(hstep p.1 p.2.1 p.2.2).choose_spec.2.2.1,
      (hstep p.1 p.2.1 p.2.2).choose_spec.2.2.2⟩
  set T : ℕ → {σ : SearchState // Inv E s endN σ ∧
      ∀ f, searchLoop E hh s endN f σ = .outOfFuel} :=
    fun i => F^[i] ⟨σ0, hI0, hOOF0⟩ with hT
  have hTsucc : ∀ i, T (i + 1) = F (T i) := by
    intro i
    rw [hT]
    exact Function.iterate_succ_apply' F i _
  set c : ℕ → ℕ → Option ℚ := fun i k => (T i).1.node_cost.get k with hc
  set ql : ℕ → ℕ := fun i => (T i).1.queue.length with hql
  have hanti : ∀ i k, costLE (c (i + 1) k) (c i k) := by
    intro i k
    have h1 := (hF (T i)).1 k
    rw [← hTsucc i] at h1
    exact h1
  have hdec : ∀ i, (∀ k, c (i + 1) k = c i k) → ql (i + 1) < ql i := by
    intro i hsame
    have h1 := (hF (T i)).2
    rw [← hTsucc i] at h1
    exact h1 hsame
  have hantiLe : ∀ i j k, i ≤ j → costLE (c j k) (c i k) := by
    intro i j k hij
    induction j with
    | zero =>
      have h1 : i = 0 := by omega
      subst h1
      exact costLE_refl _
    | succ j ihj =>
      by_cases h2 : i = j + 1
      · subst h2
        exact costLE_refl _
      · exact costLE_trans (hanti j k) (ihj (by omega))
  have hDinf : {i : ℕ | ¬∀ k, c (i + 1) k = c i k}.Infinite := by
    by_contra hfin2
    rw [Set.not_infinite] at hfin2
    obtain ⟨N0, hN0⟩ := hfin2.bddAbove
    have hqlen : ∀ j, ql (N0 + 1 + j) + j ≤ ql (N0 + 1) := by
      intro j
      induction j with
      | zero => simp
      | succ j ihj =>
        have hiD : ¬¬∀ k, c (N0 + 1 + j + 1) k = c (N0 + 1 + j) k := by
          intro hmem2
          have h3 := hN0 hmem2
          omega
        have h4 := hdec (N0 + 1 + j) (not_not.mp hiD)
        have hix : N0 + 1 + (j + 1) = N0 + 1 + j + 1 := by omega
        rw [hix]
        omega
    have h5 := hqlen (ql (N0 + 1) + 1)
    omega
  have hexk : ∃ k, {i : ℕ | c (i + 1) k ≠ c i k}.Infinite := by
    by_contra hall
    push_neg at hall
    have hUfin : (⋃ k ∈ Finset.range N, {i : ℕ | c (i + 1) k ≠ c i k}).Finite :=
      Set.Finite.biUnion (Finset.range N).finite_toSet
        (fun k _ => Set.not_infinite.mp (hall k))
    refine hDinf (hUfin.subset ?_)
    intro i hi
    have hi2 : ∃ k, c (i + 1) k ≠ c i k := by
      by_contra h6
      push_neg at h6
      exact hi h6
    obtain ⟨k, hk⟩ := hi2
    have hkN : k < N := by
      have h6 := hanti i k
      rcases h7 : c (i + 1) k with _ | v
      · rw [h7] at h6 hk
        rcases h8 : c i k with _ | w
        · rw [h8] at hk
          exact absurd rfl hk
        · rw [h8] at h6
          exact absurd h6 (by simp [costLE])
      · have h9 : ((T (i + 1)).1.node_cost.get k).isSome := by
          have h10 : (T (i + 1)).1.node_cost.get k = some v := h7
          rw [h10]
          rfl
        have h11 := (T (i + 1)).2.1.costedValid k h9
        exact hVB k h11
    exact Set.mem_biUnion (Finset.mem_coe.mpr (Finset.mem_range.mpr hkN)) hk
  obtain ⟨k0, hk0⟩ := hexk
  have hdrop : ∀ i, c (i + 1) k0 ≠ c i k0 → ∃ v, c (i + 1) k0 = some v ∧
      v ∈ VSet E ∧ ∀ w, c i k0 = some w → v < w := by
    intro i hi
    have h6 := hanti i k0
    rcases h7 : c (i + 1) k0 with _ | v
    · rw [h7] at h6 hi
      rcases h8 : c i k0 with _ | w
      · rw [h8] at hi
        exact absurd rfl hi
      · rw [h8] at h6
        exact absurd h6 (by simp [costLE])
    · refine ⟨v, rfl, ?_, ?_⟩
      · exact (T (i + 1)).2.1.inV k0 v h7
      · intro w h8
        rw [h7, h8] at h6 hi
        rcases lt_or_eq_of_le h6 with h10 | h10
        · exact h10
        · exact absurd (by rw [h10]) hi
  let u : ℕ → ℚ := fun j =>
    (hdrop (Nat.nth (fun i => c (i + 1) k0 ≠ c i k0) j)
      (Nat.nth_mem_of_infinite hk0 j)).choose
  have hu : ∀ j, c (Nat.nth (fun i => c (i + 1) k0 ≠ c i k0) j + 1) k0 =
      some (u j) ∧ u j ∈ VSet E ∧
      ∀ w, c (Nat.nth (fun i => c (i + 1) k0 ≠ c i k0) j) k0 = some w →
        u j < w :=
    fun j => (hdrop (Nat.nth (fun i => c (i + 1) k0 ≠ c i k0) j)
      (Nat.nth_mem_of_infinite hk0 j)).choose_spec
  have hstrict : StrictAnti u := by
    refine strictAnti_nat_of_succ_lt ?_
    intro j
    have h1 : Nat.nth (fun i => c (i + 1) k0 ≠ c i k0) j + 1 ≤
        Nat.nth (fun i => c (i + 1) k0 ≠ c i k0) (j + 1) := by
      have h2 := (Nat.nth_lt_nth hk0).mpr (show j < j + 1 by omega)
      omega
    have h2 : costLE (c (Nat.nth (fun i => c (i + 1) k0 ≠ c i k0) (j + 1)) k0)
        (c (Nat.nth (fun i => c (i + 1) k0 ≠ c i k0) j + 1) k0) :=
      hantiLe _ _ _ h1
    rw [(hu j).1] at h2
    obtain ⟨w, hw, hwle⟩ := costLE_some h2
    have h3 := (hu (j + 1)).2.2 w hw
    linarith
  have hWF : (VSet E).IsWF := by
    have hnn : ∀ x ∈ {cq : ℚ | weightMem E cq}, 0 ≤ x := by
      intro x hx
      obtain ⟨n, l, e2, hE2, hmem2, hcost⟩ := hx
      rw [← hcost]
      exact (hEwf n l hE2 e2 hmem2).2
    exact (hfin.isPWO.addSubmonoid_closure hnn).isWF
  rw [Set.isWF_iff_no_descending_seq] at hWF
  exact hWF u hstrict (fun n => (hu n).2.1)



theorem edgesOf_isSome (g : AdjacencyList) (n : ℕ) :
    (edgesOf g n).isSome ↔ n < g.nodes.length := by
  unfold edgesOf
  rw [List.get?_eq_getElem?]
  constructor
  · intro h1
    by_contra h2
    push_neg at h2
    rw [List.getElem?_eq_none h2] at h1
    cases h1
  · intro h1
    rw [List.getElem?_eq_getElem h1]
    rfl

theorem edgesWF_of (g : AdjacencyList)
    (hwf : ∀ l ∈ g.nodes, ∀ e ∈ l, e.node < g.nodes.length ∧ 0 ≤ e.cost) :
    EdgesWF (edgesOf g) := by
  intro n l hE e he
  have hl : l ∈ g.nodes := List.get?_mem hE
  obtain ⟨h1, h2⟩ := hwf l hl e he
  exact ⟨(edgesOf_isSome g e.node).mpr h1, h2⟩

theorem weights_finite (g : AdjacencyList) :
    {c : ℚ | weightMem (edgesOf g) c}.Finite := by
  refine Set.Finite.subset (g.nodes.flatten.map Edge.cost).toFinset.finite_toSet ?_
  intro c hc
  obtain ⟨n, l, e, hE, hmem, hcost⟩ := hc
  unfold edgesOf at hE
  have hl : l ∈ g.nodes := List.get?_mem hE
  have hfl : e ∈ g.nodes.flatten := List.mem_flatten.mpr ⟨l, hl, hmem⟩
  exact List.mem_toFinset.mpr (List.mem_map.mpr ⟨e, hfl, hcost⟩)

theorem gReach_isSome (E : ℕ → Option (List Edge)) (hEwf : EdgesWF E)
    (s : ℕ) (hs : (E s).isSome) :
    ∀ n, GReach E s n → (E n).isSome := by
  intro n hr
  induction hr with
  | refl => exact hs
  | tail h1 hE hmem ih => exact (hEwf _ _ hE _ hmem).1

/-- C2: on a graph with valid node ids and non-negative weights, for large
enough fuel `a_star` returns normally, and it returns `none` exactly when the
graph is empty, or `start = end` (a same-node query never yields a trivial
path), or no sequence of directed edges leads from `start` to `end`; in every
other case it returns some path. -/
theorem c2_astar_none_iff (g : AdjacencyList) (start endN : ℕ) (h : ℕ → Cost)
    (hwf : ∀ l ∈ g.nodes, ∀ e ∈ l, e.node < g.nodes.length ∧ 0 ≤ e.cost)
    (hs : start < g.nodes.length) (he : endN < g.nodes.length) :
    ∃ fuel, ∀ f2, fuel ≤ f2 → ∃ r,
      a_star g start endN h f2 = .ok r ∧
      (r = none ↔ (g.nodes.isEmpty = true ∨ start = endN ∨
        ¬ GReach (edgesOf g) start endN)) := by
  by_cases hse : start = endN
  · refine ⟨0, fun f2 _ => ⟨none, ?_, ?_⟩⟩
    · show a_star g start endN h f2 = .ok none
      unfold a_star
      rw [if_pos (Or.inr hse)]
    · exact ⟨fun _ => Or.inr (Or.inl hse), fun _ => rfl⟩
  · have hne : g.nodes.isEmpty = false := by
      cases hn : g.nodes.isEmpty
      · rfl
      · rw [List.isEmpty_iff] at hn
        rw [hn] at hs
        simp at hs
    have hEwf : EdgesWF (edgesOf g) := edgesWF_of g hwf
    have hstart : (edgesOf g start).isSome := (edgesOf_isSome g start).mpr hs
    have hI0 : Inv (edgesOf g) start endN (initState start) :=
      init_inv (edgesOf g) start endN hstart
    have hfin := weights_finite g
    have hVB : ∀ n, (edgesOf g n).isSome → n < g.nodes.length :=
      fun n hn => (edgesOf_isSome g n).mp hn
    obtain ⟨f, r, hr⟩ := searchLoop_terminates (edgesOf g) h start endN hEwf
      hfin g.nodes.length hVB hse (initState start) hI0
    refine ⟨f, fun f2 hf2 => ⟨r, ?_, ?_⟩⟩
    · show a_star g start endN h f2 = .ok r
      unfold a_star
      rw [if_neg ?_]
      · exact searchLoop_mono (edgesOf g) h start endN f (initState start)
          (.ok r) hr (fun hcc => RunResult.noConfusion hcc) f2 hf2
      · intro hor
        rcases hor with h1 | h1
        · rw [hne] at h1
          exact absurd h1 (by decide)
        · exact hse h1
    · cases r with
      | none =>
        have h4 := searchLoop_none_unreach (edgesOf g) h start endN hEwf hse f
          (initState start) hI0 hr
        exact ⟨fun _ => Or.inr (Or.inr h4), fun _ => rfl⟩
      | some p =>
        have h4 := searchLoop_some_reach (edgesOf g) h start endN hEwf f
          (initState start) p hI0 hr
        constructor
        · intro hcc
          cases hcc
        · intro hor
          rcases hor with h1 | h1 | h1
          · rw [hne] at h1
            exact absurd h1 (by decide)
          · exact absurd h1 hse
          · exact absurd h4 h1

theorem c2_witness :
    ∃ fuel, ∀ f2, fuel ≤ f2 → ∃ r,
      a_star gTriv 0 2 (fun _ => 0) f2 = .ok r ∧
      (r = none ↔ (gTriv.nodes.isEmpty = true ∨ 0 = 2 ∨
        ¬ GReach (edgesOf gTriv) 0 2)) :=
  c2_astar_none_iff gTriv 0 2 (fun _ => 0)
    (by
      intro l hl e hee
      fin_cases hl <;> fin_cases hee <;>
        exact ⟨by decide, by with_unfolding_all decide⟩)
    (by decide) (by decide)



/-- C6 (amended): on a non-empty graph with `start ≠ end`, an invalid START
id fails fast — the very first pop finds no edge list and the
`assert!(self.is_valid(node))` in `edges` fires, for every fuel ≥ 1. An
invalid END id, however, does NOT fail fast: with a valid start (and
well-formed non-negative edges) the search silently drains the queue and
returns a normal `None`, because the end id is only ever compared against
popped node ids and an unreachable invalid id is never popped. -/
theorem c6_invalid_id (g : AdjacencyList) (start endN : ℕ) (h : ℕ → Cost)
    (hwf : ∀ l ∈ g.nodes, ∀ e ∈ l, e.node < g.nodes.length ∧ 0 ≤ e.cost)
    (hnz : g.nodes ≠ []) (hne : start ≠ endN) :
    (g.nodes.length ≤ start →
      ∀ f, 1 ≤ f → a_star g start endN h f = .fatal) ∧
    (start < g.nodes.length → g.nodes.length ≤ endN →
      ∃ f, a_star g start endN h f = .ok none) := by
  have hnotempty : ¬(g.nodes.isEmpty = true ∨ start = endN) := by
    intro hor
    rcases hor with h1 | h1
    · exact hnz (List.isEmpty_iff.mp h1)
    · exact hne h1
  constructor
  · intro hbad f hf
    obtain ⟨f2, rfl⟩ : ∃ f2, f = f2 + 1 := ⟨f - 1, by omega⟩
    unfold a_star
    rw [if_neg hnotempty]
    have hq : qpop (initState start).queue = some (⟨start, 0⟩, []) := by
      show qpop [⟨start, 0⟩] = some (⟨start, 0⟩, [])
      simp [qpop, qmaxFrom, List.erase_cons_head]
    simp only [searchLoop]
    rw [hq]
    dsimp only
    rw [if_neg hne]
    have hE : edgesOf g start = none := by
      unfold edgesOf
      rw [List.get?_eq_getElem?]
      exact List.getElem?_eq_none hbad
    rw [hE]
  · intro hs hbad
    have hEwf : EdgesWF (edgesOf g) := edgesWF_of g hwf
    have hstart : (edgesOf g start).isSome := (edgesOf_isSome g start).mpr hs
    have hI0 : Inv (edgesOf g) start endN (initState start) :=
      init_inv (edgesOf g) start endN hstart
    obtain ⟨f, r, hr⟩ := searchLoop_terminates (edgesOf g) h start endN hEwf
      (weights_finite g) g.nodes.length
      (fun n hn => (edgesOf_isSome g n).mp hn) hne (initState start) hI0
    refine ⟨f, ?_⟩
    unfold a_star
    rw [if_neg hnotempty]
    cases r with
    | none => exact hr
    | some p =>
      exfalso
      have h4 := searchLoop_some_reach (edgesOf g) h start endN hEwf f
        (initState start) p hI0 hr
      have h5 := gReach_isSome (edgesOf g) hEwf start hstart endN h4
      have h6 := (edgesOf_isSome g endN).mp h5
      omega

theorem c6_witness :
    ((gOne.nodes.length ≤ 1 →
        ∀ f, 1 ≤ f → a_star gOne 1 0 (fun _ => 0) f = .fatal) ∧
      (1 < gOne.nodes.length → gOne.nodes.length ≤ 0 →
        ∃ f, a_star gOne 1 0 (fun _ => 0) f = .ok none)) ∧
    ((gOne.nodes.length ≤ 0 →
        ∀ f, 1 ≤ f → a_star gOne 0 5 (fun _ => 0) f = .fatal) ∧
      (0 < gOne.nodes.length → gOne.nodes.length ≤ 5 →
        ∃ f, a_star gOne 0 5 (fun _ => 0) f = .ok none)) :=
  ⟨c6_invalid_id gOne 1 0 (fun _ => 0) (by decide) (by decide) (by decide),
    c6_invalid_id gOne 0 5 (fun _ => 0) (by decide) (by decide) (by decide)⟩


end Graf
